import Mathlib

/-!
# Verification of the `gmu/s3` Path logic

This file gives a shallow embedding, in Lean 4, of the pure string logic of
`src/gmu/s3/s3.go`: the `Path` value type with its `Join`, `ToURI`, `Append`
operations and the `FromURI` parser, together with the parts of the Go
standard library those functions call (`strings.Trim`, `path.Clean`,
`path.Join`, and the relevant portions of `net/url`: `Parse`, `URL.String`,
percent escaping and unescaping).

Go strings are byte strings; we model them as `List Char`, identifying a
byte with the character of that code point.  This identification is exact
for ASCII data (every concrete string in the repository and its tests is
ASCII); for multi-byte UTF-8 data the byte-level loops of `path.Clean` and
`strings.Trim` only compare bytes against ASCII separators, so the model's
per-character behaviour coincides with Go's per-byte behaviour there as
well.

Definitions are direct transcriptions of the Go sources (the repository's
own code, and the Go standard library functions it calls); imperative
loops become structural recursions, with accumulators replacing mutable
buffers.  Error returns become `Except`/`Option` values.
-/

/-! ## Character classes used by the Go code -/

/-- ASCII lower-case letter, as Go's byte comparisons `'a' <= c && c <= 'z'`. -/
def isLowerGo (c : Char) : Bool := 'a'.toNat ≤ c.toNat ∧ c.toNat ≤ 'z'.toNat

/-- ASCII upper-case letter, as Go's byte comparisons `'A' <= c && c <= 'Z'`. -/
def isUpperGo (c : Char) : Bool := 'A'.toNat ≤ c.toNat ∧ c.toNat ≤ 'Z'.toNat

/-- ASCII digit, as Go's byte comparisons `'0' <= c && c <= '9'`. -/
def isDigitGo (c : Char) : Bool := '0'.toNat ≤ c.toNat ∧ c.toNat ≤ '9'.toNat

/-- ASCII letter (either case). -/
def isAlphaGo (c : Char) : Bool := isLowerGo c ∨ isUpperGo c

/-! ## Go `strings` helpers used by `s3.go` -/

/-- Model of `strings.Trim(s, "/")`: remove all leading and trailing `'/'`
characters.  Go trims from the left, then from the right; we drop from the
left, then drop from the left of the reversal. -/
def stringsTrimSlash (s : List Char) : List Char :=
  (((s.dropWhile (fun c => c == '/')).reverse.dropWhile (fun c => c == '/'))).reverse

/-- Model of `strings.Cut(s, sep)` for a one-character separator: split at
the first occurrence, returning (before, after, found). -/
def cutChar (sep : Char) : List Char → List Char × List Char × Bool
  | [] => ([], [], false)
  | c :: rest =>
    if c = sep then ([], rest, true)
    else
      let r := cutChar sep rest
      (c :: r.1, r.2.1, r.2.2)

/-- Split at the last occurrence of `sep` (Go `strings.LastIndex` followed by
slicing): `some (before, after)` when `sep` occurs, `none` otherwise. -/
def splitAtLastChar (sep : Char) : List Char → Option (List Char × List Char)
  | [] => none
  | c :: rest =>
    match splitAtLastChar sep rest with
    | some (p, q) => some (c :: p, q)
    | none => if c = sep then some ([], rest) else none

/-! ## Go `path.Clean` and `path.Join`

`path.Clean` is transcribed from the Go standard library.  The mutable
output buffer `lazybuf` is modelled by a reversed character list `out`
(most recently written character first); `out.w` is `out.length`, and the
`..`-backtracking loop that rewinds `out.w` becomes `popSeg`.
-/

/-- Backtracking step of `path.Clean` for a `..` element, Go:
`out.w--; for out.w > dotdot && out.index(out.w) != '/' { out.w-- }`.
`out` is the reversed buffer; the head is the most recent character. -/
def popSeg (dotdot : Nat) : List Char → List Char
  | [] => []
  | c :: rest => if dotdot < rest.length ∧ c ≠ '/' then popSeg dotdot rest else rest

/-- Main loop of Go `path.Clean`.  `inp` is the unread input (`path[r:]`),
`out` the reversed output buffer, `dotdot` the buffer position up to which
`..` may not backtrack.  The flag `inSeg` is true while inside the default
case's copy loop `for ; r < n && path[r] != '/'; r++ { out.append(path[r]) }`:
that loop is unrolled here to one input character per recursive step (the
`'/'` that stops it is consumed together with the outer `path[r] == '/'`
case that immediately follows it in Go). -/
def cleanLoop (rooted : Bool) : List Char → List Char → Nat → Bool → List Char
  | [], out, _, _ => out
  | c :: rest, out, dotdot, true =>
    if c = '/' then cleanLoop rooted rest out dotdot false
    else cleanLoop rooted rest (c :: out) dotdot true
  | c :: rest, out, dotdot, false =>
    if c = '/' then
      cleanLoop rooted rest out dotdot false
    else if c = '.' ∧ (rest = [] ∨ rest.head? = some '/') then
      cleanLoop rooted rest out dotdot false
    else if c = '.' ∧ rest.head? = some '.' ∧ (rest.tail = [] ∨ rest.tail.head? = some '/') then
      match rest with
      | _c2 :: rest2 =>
        if dotdot < out.length then
          cleanLoop rooted rest2 (popSeg dotdot out) dotdot false
        else if rooted = false then
          let out2 := '.' :: '.' :: (if out.length ≠ 0 then '/' :: out else out)
          cleanLoop rooted rest2 out2 out2.length false
        else
          cleanLoop rooted rest2 out dotdot false
      | [] => out
    else
      cleanLoop rooted rest
        (c :: (if (rooted ∧ out.length ≠ 1) ∨ (rooted = false ∧ out.length ≠ 0)
          then '/' :: out else out))
        dotdot true

/-- Model of Go `path.Clean`. -/
def pathClean (p : List Char) : List Char :=
  if p = [] then ['.']
  else
    let rooted := p.head? = some '/'
    let out :=
      if rooted then cleanLoop true p.tail ['/'] 1 false
      else cleanLoop false p [] 0 false
    if out.length = 0 then ['.'] else out.reverse

/-- Output-building loop of Go `path.Join`: concatenate the elements,
inserting `'/'` between the parts written so far and each further
non-skipped element (an empty element is skipped while the buffer is
empty). -/
def joinBuf (elems : List (List Char)) : List Char :=
  elems.foldl
    (fun buf e =>
      if buf.length > 0 ∨ e ≠ [] then
        (if buf.length > 0 then buf ++ '/' :: e else buf ++ e)
      else buf)
    []

/-- Model of Go `path.Join`: empty result when every element is empty,
otherwise `Clean` of the `'/'`-joined elements. -/
def pathJoinGo (elems : List (List Char)) : List Char :=
  if (elems.map List.length).sum = 0 then [] else pathClean (joinBuf elems)

/-! ## The repository's `Path` type and its pure operations -/

/-- The `Path` struct of `s3.go`: a bucket and a key. -/
structure S3Path where
  bucket : List Char
  key : List Char
deriving DecidableEq, Repr

/-- Model of `Path.Join`: trim leading/trailing slashes from bucket and key,
then `path.Join` the two. -/
def S3Path.join (p : S3Path) : List Char :=
  pathJoinGo [stringsTrimSlash p.bucket, stringsTrimSlash p.key]

/-- Model of `Append`: same bucket, key is `path.Join(p.Key, key)`. -/
def s3Append (p : S3Path) (key : List Char) : S3Path :=
  ⟨p.bucket, pathJoinGo [p.key, key]⟩

/-! ## Go `net/url`: percent escaping

Transcribed from `net/url/url.go`.  The `encoding` enumeration and
`shouldEscape`, `escape`, `unescape` follow the Go source; the two-pass
count-then-copy structure of `escape`/`unescape` (an allocation
optimization producing the same string) is collapsed into a single pass.
-/

/-- The `encoding` enumeration of `net/url`. -/
inductive Encoding where
  | path
  | pathSegment
  | host
  | zone
  | userPassword
  | queryComponent
  | fragment
deriving DecidableEq, Repr

/-- Characters admitted unescaped in a host by Go `shouldEscape`'s
`encodeHost`/`encodeZone` sub-switch. -/
def hostOkChars : List Char :=
  ['!', '$', '&', '\'', '(', ')', '*', '+', ',', ';', '=', ':', '[', ']', '<', '>', '"']

/-- The reserved characters `$&+,/:;=?@` of RFC 3986 §2.2 as examined by Go
`shouldEscape`. -/
def reservedChars : List Char := ['$', '&', '+', ',', '/', ':', ';', '=', '?', '@']

/-- Model of Go `net/url.shouldEscape(c, mode)`. -/
def shouldEscape (c : Char) (mode : Encoding) : Bool :=
  if isAlphaGo c ∨ isDigitGo c then false
  else if (mode = .host ∨ mode = .zone) ∧ hostOkChars.contains c then false
  else if c = '-' ∨ c = '_' ∨ c = '.' ∨ c = '~' then false
  else if reservedChars.contains c then
    match mode with
    | .path => c = '?'
    | .pathSegment => c = '/' ∨ c = ';' ∨ c = ',' ∨ c = '?'
    | .userPassword => c = '@' ∨ c = '/' ∨ c = '?' ∨ c = ':'
    | .queryComponent => true
    | .fragment => false
    | .host => true
    | .zone => true
  else if mode = .fragment ∧ (c = '!' ∨ c = '(' ∨ c = ')' ∨ c = '*') then false
  else true

/-- Model of Go `ishex`. -/
def ishex (c : Char) : Bool :=
  ('0'.toNat ≤ c.toNat ∧ c.toNat ≤ '9'.toNat) ∨
  ('a'.toNat ≤ c.toNat ∧ c.toNat ≤ 'f'.toNat) ∨
  ('A'.toNat ≤ c.toNat ∧ c.toNat ≤ 'F'.toNat)

/-- Model of Go `unhex` (numeric value of a hex digit, 0 otherwise). -/
def unhexNat (c : Char) : Nat :=
  if '0'.toNat ≤ c.toNat ∧ c.toNat ≤ '9'.toNat then c.toNat - '0'.toNat
  else if 'a'.toNat ≤ c.toNat ∧ c.toNat ≤ 'f'.toNat then c.toNat - 'a'.toNat + 10
  else if 'A'.toNat ≤ c.toNat ∧ c.toNat ≤ 'F'.toNat then c.toNat - 'A'.toNat + 10
  else 0

/-- Hex digit of Go's `upperhex` table. -/
def upperhexDigit (n : Nat) : Char :=
  if n < 10 then Char.ofNat ('0'.toNat + n) else Char.ofNat ('A'.toNat + n - 10)

/-- Errors of the modelled `net/url` functions.  Go wraps the inner error in
a `*url.Error` whose operation tag only affects message formatting; the
wrapper is elided. -/
inductive UrlError where
  | escapeError (s : List Char)
  | invalidHostError (s : List Char)
  | ctlInURL
  | missingScheme
  | colonInFirstSegment
  | missingCloseBracket
  | invalidPort (s : List Char)
  | invalidUserinfo
deriving DecidableEq, Repr

/-- Model of Go `net/url.unescape(s, mode)`: validate and percent-decode.
The decoded byte of `%XY` is represented by the character of that code
point. -/
def unescapeGo (mode : Encoding) : List Char → Except UrlError (List Char)
  | [] => .ok []
  | c :: rest =>
    if c = '%' then
      match rest with
      | c1 :: c2 :: rest2 =>
        if ¬(ishex c1 ∧ ishex c2) then .error (.escapeError (('%' :: rest).take 3))
        else if mode = .host ∧ unhexNat c1 < 8 ∧ ¬(c1 = '2' ∧ c2 = '5') then
          .error (.escapeError ['%', c1, c2])
        else if mode = .zone ∧ ¬(c1 = '2' ∧ c2 = '5') ∧
            Char.ofNat (unhexNat c1 * 16 + unhexNat c2) ≠ ' ' ∧
            shouldEscape (Char.ofNat (unhexNat c1 * 16 + unhexNat c2)) .host then
          .error (.escapeError ['%', c1, c2])
        else
          match unescapeGo mode rest2 with
          | .error e => .error e
          | .ok l => .ok (Char.ofNat (unhexNat c1 * 16 + unhexNat c2) :: l)
      | _ => .error (.escapeError (('%' :: rest).take 3))
    else if c = '+' then
      match unescapeGo mode rest with
      | .error e => .error e
      | .ok l => .ok ((if mode = .queryComponent then ' ' else '+') :: l)
    else
      if (mode = .host ∨ mode = .zone) ∧ c.toNat < 0x80 ∧ shouldEscape c mode then
        .error (.invalidHostError [c])
      else
        match unescapeGo mode rest with
        | .error e => .error e
        | .ok l => .ok (c :: l)

/-- Model of Go `net/url.escape(s, mode)`. -/
def escapeGo (mode : Encoding) : List Char → List Char
  | [] => []
  | c :: rest =>
    if shouldEscape c mode then
      if c = ' ' ∧ mode = .queryComponent then '+' :: escapeGo mode rest
      else '%' :: upperhexDigit (c.toNat / 16 % 16) :: upperhexDigit (c.toNat % 16)
        :: escapeGo mode rest
    else c :: escapeGo mode rest

/-! ## Go `net/url`: URL record and parsing -/

/-- Model of `net/url.Userinfo`. -/
structure GoUser where
  username : List Char
  password : List Char
  passwordSet : Bool
deriving DecidableEq, Repr

/-- Model of `net/url.URL`; `opq` is the Go field `Opaque`. -/
structure URL where
  scheme : List Char := []
  opq : List Char := []
  user : Option GoUser := none
  host : List Char := []
  path : List Char := []
  rawPath : List Char := []
  omitHost : Bool := false
  forceQuery : Bool := false
  rawQuery : List Char := []
  fragment : List Char := []
  rawFragment : List Char := []
deriving DecidableEq, Repr

deriving instance DecidableEq for Except

/-- Model of Go `validOptionalPort`. -/
def validOptionalPort (port : List Char) : Bool :=
  match port with
  | [] => true
  | c :: rest => c = ':' ∧ rest.all (fun b => isDigitGo b)

/-- Model of Go `validUserinfo`. -/
def validUserinfo (s : List Char) : Bool :=
  s.all fun r =>
    isUpperGo r ∨ isLowerGo r ∨ isDigitGo r ∨
    ['-', '.', '_', ':', '~', '!', '$', '&', '\'', '(', ')', '*', '+', ',', ';', '=', '%',
      '@'].contains r

/-- Split at the first occurrence of the substring `%25`
(Go `strings.Index(s, "%25")` followed by slicing): `some (before, from)`
where `from` begins with `%25`. -/
def splitAtPct25 : List Char → Option (List Char × List Char)
  | [] => none
  | c :: rest =>
    if c = '%' ∧ rest.head? = some '2' ∧ rest.tail.head? = some '5' then some ([], c :: rest)
    else
      match splitAtPct25 rest with
      | some (p, q) => some (c :: p, q)
      | none => none

/-- Model of Go `parseHost`. -/
def parseHostGo (host : List Char) : Except UrlError (List Char) :=
  if host.head? = some '[' then
    match splitAtLastChar ']' host with
    | none => .error .missingCloseBracket
    | some (pre, post) =>
      if ¬validOptionalPort post then .error (.invalidPort post)
      else
        match splitAtPct25 pre with
        | some (z1, z2) =>
          match unescapeGo .host z1 with
          | .error e => .error e
          | .ok host1 =>
            match unescapeGo .zone z2 with
            | .error e => .error e
            | .ok host2 =>
              match unescapeGo .host (']' :: post) with
              | .error e => .error e
              | .ok host3 => .ok (host1 ++ host2 ++ host3)
        | none =>
          match unescapeGo .host host with
          | .error e => .error e
          | .ok h => .ok h
  else
    match splitAtLastChar ':' host with
    | some (_, after) =>
      if ¬validOptionalPort (':' :: after) then .error (.invalidPort (':' :: after))
      else
        match unescapeGo .host host with
        | .error e => .error e
        | .ok h => .ok h
    | none =>
      match unescapeGo .host host with
      | .error e => .error e
      | .ok h => .ok h

/-- Model of Go `parseAuthority`. -/
def parseAuthorityGo (authority : List Char) :
    Except UrlError (Option GoUser × List Char) :=
  match splitAtLastChar '@' authority with
  | none =>
    match parseHostGo authority with
    | .error e => .error e
    | .ok host => .ok (none, host)
  | some (userinfo, hostPart) =>
    match parseHostGo hostPart with
    | .error e => .error e
    | .ok host =>
      if ¬validUserinfo userinfo then .error .invalidUserinfo
      else if ¬userinfo.contains ':' then
        match unescapeGo .userPassword userinfo with
        | .error e => .error e
        | .ok un => .ok (some ⟨un, [], false⟩, host)
      else
        match cutChar ':' userinfo with
        | (un0, pw0, _) =>
          match unescapeGo .userPassword un0 with
          | .error e => .error e
          | .ok un =>
            match unescapeGo .userPassword pw0 with
            | .error e => .error e
            | .ok pw => .ok (some ⟨un, pw, true⟩, host)

/-- Model of Go `URL.setPath`: returns the decoded `Path` and the `RawPath`
(empty when re-escaping the decoded path reproduces the input). -/
def setPathGo (p : List Char) : Except UrlError (List Char × List Char) :=
  match unescapeGo .path p with
  | .error e => .error e
  | .ok path => .ok (path, if escapeGo .path path = p then [] else p)

/-- Model of Go `getScheme`; `orig` is the whole input (returned when no
scheme is present), `i` the current index. -/
def getSchemeGo (orig : List Char) : List Char → Nat → Except UrlError (List Char × List Char)
  | [], _ => .ok ([], orig)
  | c :: rest, i =>
    if isAlphaGo c then getSchemeGo orig rest (i + 1)
    else if isDigitGo c ∨ c = '+' ∨ c = '-' ∨ c = '.' then
      if i = 0 then .ok ([], orig) else getSchemeGo orig rest (i + 1)
    else if c = ':' then
      if i = 0 then .error .missingScheme else .ok (orig.take i, rest)
    else .ok ([], orig)

/-- Model of Go `getScheme(rawURL)`. -/
def getScheme (s : List Char) : Except UrlError (List Char × List Char) :=
  getSchemeGo s s 0

/-- ASCII lowering, as `strings.ToLower` acts on the scheme (whose
characters `getScheme` restricts to ASCII). -/
def toLowerGo (s : List Char) : List Char :=
  s.map fun c => if isUpperGo c then Char.ofNat (c.toNat + 32) else c

/-- Model of Go `stringContainsCTLByte`. -/
def hasCTL (s : List Char) : Bool :=
  s.any fun c => c.toNat < 0x20 ∨ c.toNat = 0x7f

/-- Model of Go `split(s, sep, false)` for a one-byte separator: split at
the first occurrence, keeping the separator at the start of the second
part (empty second part when the separator is absent). -/
def splitKeepSep (sep : Char) (s : List Char) : List Char × List Char :=
  match cutChar sep s with
  | (b, a, f) => (b, if f then sep :: a else [])

/-- Query-splitting step of Go `url.parse`: returns the input with the
query removed, the `ForceQuery` flag, and the `RawQuery`. -/
def querySplitGo (rest0 : List Char) : List Char × Bool × List Char :=
  if rest0.getLast? = some '?' ∧ ¬rest0.dropLast.contains '?' then (rest0.dropLast, true, [])
  else
    match cutChar '?' rest0 with
    | (r, q, _) => (r, false, q)

/-- Authority-and-path phase of Go `url.parse` (with `viaRequest = false`):
everything after the opaque check, operating on the input with scheme and
query removed. -/
def parseAfterScheme (scheme rest : List Char) (fq : Bool) (rq : List Char) :
    Except UrlError URL :=
  if (scheme ≠ [] ∨ ¬(rest.take 3 = ['/', '/', '/'])) ∧ rest.take 2 = ['/', '/'] then
    match splitKeepSep '/' (rest.drop 2) with
    | (authority, rest2) =>
      match parseAuthorityGo authority with
      | .error e => .error e
      | .ok (user, host) =>
        match setPathGo rest2 with
        | .error e => .error e
        | .ok (path, rawPath) =>
          .ok { scheme := scheme, user := user, host := host, path := path,
                rawPath := rawPath, forceQuery := fq, rawQuery := rq }
  else
    match setPathGo rest with
    | .error e => .error e
    | .ok (path, rawPath) =>
      .ok { scheme := scheme, path := path, rawPath := rawPath,
            omitHost := scheme ≠ [] ∧ rest.head? = some '/',
            forceQuery := fq, rawQuery := rq }

/-- Model of Go `url.parse(rawURL, false)`: the URL without its fragment. -/
def parseNoFrag (rawURL : List Char) : Except UrlError URL :=
  if hasCTL rawURL then .error .ctlInURL
  else if rawURL = ['*'] then .ok { path := ['*'] }
  else
    match getScheme rawURL with
    | .error e => .error e
    | .ok (sc0, rest0) =>
      match querySplitGo rest0 with
      | (rest, fq, rawQuery) =>
        if ¬(rest.head? = some '/') then
          if toLowerGo sc0 ≠ [] then
            .ok { scheme := toLowerGo sc0, opq := rest, forceQuery := fq, rawQuery := rawQuery }
          else
            match cutChar '/' rest with
            | (seg, _, _) =>
              if seg.contains ':' then .error .colonInFirstSegment
              else parseAfterScheme (toLowerGo sc0) rest fq rawQuery
        else parseAfterScheme (toLowerGo sc0) rest fq rawQuery

/-- Model of Go `url.Parse(rawURL)`: split off the fragment, parse the rest,
then decode and attach the fragment (`URL.setFragment`). -/
def urlParse (rawURL : List Char) : Except UrlError URL :=
  match cutChar '#' rawURL with
  | (u0, frag, _) =>
    match parseNoFrag u0 with
    | .error e => .error e
    | .ok u =>
      if frag = [] then .ok u
      else
        match unescapeGo .fragment frag with
        | .error e => .error e
        | .ok f =>
          .ok { u with
                  fragment := f
                  rawFragment := if escapeGo .fragment f = frag then [] else frag }

/-! ## Go `net/url`: printing (`URL.String`) -/

/-- Model of `Userinfo.String`. -/
def userString (u : GoUser) : List Char :=
  escapeGo .userPassword u.username ++
    (if u.passwordSet then ':' :: escapeGo .userPassword u.password else [])

/-- Test whether `raw` is a well-formed encoding that decodes to `target`
under `mode`: the combination of `validEncoded` and `unescape` used by
`URL.EscapedPath` and `URL.EscapedFragment`. -/
def unescapesTo (mode : Encoding) (raw target : List Char) : Bool :=
  match unescapeGo mode raw with
  | .ok p => p = target
  | .error _ => false

/-- Model of `URL.EscapedPath`. -/
def escapedPath (u : URL) : List Char :=
  if u.rawPath ≠ [] ∧ unescapesTo .path u.rawPath u.path then u.rawPath
  else if u.path = ['*'] then ['*']
  else escapeGo .path u.path

/-- Model of `URL.EscapedFragment`. -/
def escapedFragment (u : URL) : List Char :=
  if u.rawFragment ≠ [] ∧ unescapesTo .fragment u.rawFragment u.fragment then u.rawFragment
  else escapeGo .fragment u.fragment

/-- Model of `URL.String`.  (The `validEncoded` pre-check of `EscapedPath`
and `EscapedFragment` is subsumed here by the round-trip test in
`escapedPath`/`escapedFragment`: `unescape` fails on exactly the inputs
`validEncoded` rejects for these modes, as both merely validate percent
escapes for `encodePath`/`encodeFragment`.) -/
def uString (u : URL) : List Char :=
  let buf1 := if u.scheme ≠ [] then u.scheme ++ [':'] else []
  let buf5 :=
    if u.opq ≠ [] then buf1 ++ u.opq
    else
      let buf2 :=
        if u.scheme ≠ [] ∨ u.host ≠ [] ∨ u.user.isSome then
          if u.omitHost ∧ u.host = [] ∧ u.user.isNone then buf1
          else
            let b0 := if u.host ≠ [] ∨ u.path ≠ [] ∨ u.user.isSome
              then buf1 ++ ['/', '/'] else buf1
            let b1 :=
              match u.user with
              | some usr => b0 ++ userString usr ++ ['@']
              | none => b0
            if u.host ≠ [] then b1 ++ escapeGo .host u.host else b1
        else buf1
      let ep := escapedPath u
      let buf3 := if ep ≠ [] ∧ ¬(ep.head? = some '/') ∧ u.host ≠ [] then buf2 ++ ['/'] else buf2
      let buf4 :=
        if buf3 = [] ∧ (cutChar '/' ep).1.contains ':' then buf3 ++ ['.', '/'] else buf3
      buf4 ++ ep
  let buf6 := if u.forceQuery ∨ u.rawQuery ≠ [] then buf5 ++ '?' :: u.rawQuery else buf5
  if u.fragment ≠ [] then buf6 ++ '#' :: escapedFragment u else buf6

/-! ## The repository's URI operations -/

/-- The scheme literal `"s3"`. -/
def s3SchemeChars : List Char := ['s', '3']

/-- The constant `"s3://"` that `ToURI` parses. -/
def s3SchemeSlashes : List Char := ['s', '3', ':', '/', '/']

/-- Errors returned by `FromURI`: the repository's `ParseError` (carrying
the offending input), or an error propagated from `url.Parse`. -/
inductive S3Err where
  | parseError (uri : List Char)
  | urlError (e : UrlError)
deriving DecidableEq, Repr

/-- Model of `Path.ToURI`: parse the constant `"s3://"`, overwrite its
`Path` field with `p.Join()`, and print.  The `url.Parse` error is ignored
in Go; the constant always parses, so the error branch is unreachable. -/
def S3Path.toURI (p : S3Path) : List Char :=
  match urlParse s3SchemeSlashes with
  | .ok u => uString { u with path := p.join }
  | .error _ => []

/-- Model of `FromURI`, returning Go's `(Path, error)` pair. -/
def fromURI (uri : List Char) : S3Path × Option S3Err :=
  match urlParse uri with
  | .error e => (⟨[], []⟩, some (.urlError e))
  | .ok u =>
    if ¬(u.scheme = s3SchemeChars) ∨ u.host.length = 0 then (⟨[], []⟩, some (.parseError uri))
    else (⟨u.host, if u.path.length ≤ 1 then [] else u.path.drop 1⟩, none)

/-! ## Canonical segments

The amended claims about `Join` restrict to canonical inputs: sequences of
non-empty slash-free segments other than `.` and `..`, so that `path.Clean`
is the identity on their `'/'`-interleaving.
-/

/-- A good path segment: non-empty, slash-free, and neither `.` nor `..`. -/
def goodSeg (s : List Char) : Prop :=
  s ≠ [] ∧ (∀ c ∈ s, c ≠ '/') ∧ s ≠ ['.'] ∧ s ≠ ['.', '.']

instance : DecidablePred goodSeg := fun s => by
  unfold goodSeg
  infer_instance

/-- Interleave a list of segments with single `'/'` separators. -/
def interSegs : List (List Char) → List Char
  | [] => []
  | [s] => s
  | s :: rest => s ++ '/' :: interSegs rest

/-- Modelled from the spec's words for comparison with the code: "key = URI
path with the leading separator stripped (empty if the path is absent or is
just the root separator)". -/
def specStripLeadingSep (p : List Char) : List Char :=
  if p.head? = some '/' then p.tail else p

/-- Characters that pass through every relevant `net/url` transformation
unchanged: ASCII alphanumerics and the RFC 3986 unreserved marks.  Used to
state the canonical round-trip claim. -/
def safeChar (c : Char) : Prop :=
  isAlphaGo c = true ∨ isDigitGo c = true ∨ c = '-' ∨ c = '_' ∨ c = '.' ∨ c = '~'

instance : DecidablePred safeChar := fun c => by
  unfold safeChar
  infer_instance

/-- No two adjacent separators: the binary relation used to state that a
string contains no `"//"`. -/
def notSS (a b : Char) : Prop := ¬(a = '/' ∧ b = '/')

/-- Output-side facts proved about `path.Clean`'s buffer for non-rooted
input: the (reversed) buffer never begins or ends with `'/'` and never
holds two adjacent `'/'` characters. -/
def CleanOut (o : List Char) : Prop :=
  o.head? ≠ some '/' ∧ o.getLast? ≠ some '/' ∧ List.Chain' notSS o

/-- Invariant of `cleanLoop`'s reversed buffer `out` and backtrack bound
`dotdot` for non-rooted input: the buffer satisfies `CleanOut`, the bound
is within the buffer, and the character just inside the bound (the start
of the protected `..` prefix) is a dot. -/
def CleanInv (out : List Char) (dd : Nat) : Prop :=
  CleanOut out ∧ dd ≤ out.length ∧
    (dd = 0 ∨ (out.drop (out.length - dd)).head? = some '.')

/-- Sanity checks: the five `Path.Join` cases of the repository's own test
table `TestS3PathJoin`. -/
theorem test_join_table :
    S3Path.join ⟨"test_bucket".data, "test_key".data⟩ = "test_bucket/test_key".data ∧
    S3Path.join ⟨"test_bucket".data, "test_key/dir1/dir2".data⟩ =
      "test_bucket/test_key/dir1/dir2".data ∧
    S3Path.join ⟨"/test_bucket".data, "/test_key".data⟩ = "test_bucket/test_key".data ∧
    S3Path.join ⟨"test_bucket/".data, "test_key/".data⟩ = "test_bucket/test_key".data ∧
    S3Path.join ⟨"/test_bucket/".data, "/test_key/".data⟩ = "test_bucket/test_key".data := by
  decide

/-- Sanity checks: the six `Path.ToURI` cases of the repository's test table
`TestS3PathMakeUri`. -/
theorem test_touri_table :
    S3Path.toURI ⟨"test_bucket".data, "test_key".data⟩ = "s3://test_bucket/test_key".data ∧
    S3Path.toURI ⟨"test_bucket".data, "test_key/dir1/dir2".data⟩ =
      "s3://test_bucket/test_key/dir1/dir2".data ∧
    S3Path.toURI ⟨"/test_bucket".data, "/test_key".data⟩ = "s3://test_bucket/test_key".data ∧
    S3Path.toURI ⟨"test_bucket/".data, "test_key/".data⟩ = "s3://test_bucket/test_key".data ∧
    S3Path.toURI ⟨"/test_bucket/".data, "/test_key/".data⟩ = "s3://test_bucket/test_key".data ∧
    S3Path.toURI ⟨"test_bucket".data, "".data⟩ = "s3://test_bucket".data := by
  decide

/-- Sanity checks: the seven `FromURI` cases of the repository's test table
`TestParseS3Uri`. -/
theorem test_fromuri_table :
    fromURI "s3://test_bucket/test_key".data =
      (⟨"test_bucket".data, "test_key".data⟩, none) ∧
    fromURI "s3://test_bucket/test_dir/test_key".data =
      (⟨"test_bucket".data, "test_dir/test_key".data⟩, none) ∧
    fromURI "s3://test_bucket".data = (⟨"test_bucket".data, "".data⟩, none) ∧
    fromURI "s3://test_bucket/".data = (⟨"test_bucket".data, "".data⟩, none) ∧
    fromURI "test_bucket/test_key".data =
      (⟨[], []⟩, some (.parseError "test_bucket/test_key".data)) ∧
    fromURI "s3:/test_bucket/test_key".data =
      (⟨[], []⟩, some (.parseError "s3:/test_bucket/test_key".data)) ∧
    fromURI "https://test_bucket/test_key".data =
      (⟨[], []⟩, some (.parseError "https://test_bucket/test_key".data)) := by
  decide

/-! ## Parsed-path shape: on success with a host, the path is empty or rooted -/

theorem unescapeGo_path_slash (t : List Char) :
    unescapeGo .path ('/' :: t) =
      match unescapeGo .path t with
      | .error e => .error e
      | .ok l => .ok ('/' :: l) := by
  cases ht : unescapeGo .path t with
  | error e =>
    unfold unescapeGo
    rw [if_neg (by decide), if_neg (by decide), if_neg (by decide), ht]
  | ok l =>
    unfold unescapeGo
    rw [if_neg (by decide), if_neg (by decide), if_neg (by decide), ht]

theorem setPathGo_shape (r path raw : List Char) (hr : r = [] ∨ r.head? = some '/')
    (h : setPathGo r = .ok (path, raw)) : path = [] ∨ path.head? = some '/' := by
  rcases hr with rfl | hr
  · have he : setPathGo [] = .ok ([], []) := by decide
    rw [he] at h
    injection h with h2
    injection h2 with h3 _
    exact Or.inl h3.symm
  · cases r with
    | nil => simp at hr
    | cons c t =>
      have hc : c = '/' := by simpa using hr
      subst hc
      unfold setPathGo at h
      rw [unescapeGo_path_slash] at h
      cases hu : unescapeGo .path t with
      | error e => rw [hu] at h; exact absurd h (by simp)
      | ok l =>
        rw [hu] at h
        simp only at h
        injection h with h2
        injection h2 with h3 _
        subst h3
        exact Or.inr rfl

theorem splitKeepSep_snd_shape (sep : Char) (s : List Char) :
    (splitKeepSep sep s).2 = [] ∨ (splitKeepSep sep s).2.head? = some sep := by
  unfold splitKeepSep
  rcases cutChar sep s with ⟨b, a, f⟩
  cases f
  · exact Or.inl rfl
  · exact Or.inr rfl

theorem parseAfterScheme_shape (sc rest : List Char) (fq : Bool) (rq : List Char) (u : URL)
    (h : parseAfterScheme sc rest fq rq = .ok u) (hh : u.host ≠ []) :
    u.path = [] ∨ u.path.head? = some '/' := by
  unfold parseAfterScheme at h
  split at h
  · rcases hcut : splitKeepSep '/' (rest.drop 2) with ⟨authority, rest2⟩
    rw [hcut] at h
    cases hpa : parseAuthorityGo authority with
    | error e => simp [hpa] at h
    | ok uh =>
      obtain ⟨usr, host⟩ := uh
      simp only [hpa] at h
      cases hsp : setPathGo rest2 with
      | error e => simp [hsp] at h
      | ok pr =>
        obtain ⟨path, rawPath⟩ := pr
        simp only [hsp] at h
        injection h with h2
        subst h2
        have hs2 : rest2 = [] ∨ rest2.head? = some '/' := by
          have := splitKeepSep_snd_shape '/' (rest.drop 2)
          rw [hcut] at this
          exact this
        exact setPathGo_shape rest2 path rawPath hs2 hsp
  · cases hsp : setPathGo rest with
    | error e => simp [hsp] at h
    | ok pr =>
      obtain ⟨path, rawPath⟩ := pr
      simp only [hsp] at h
      injection h with h2
      subst h2
      simp at hh

theorem parseNoFrag_shape (s : List Char) (u : URL) (h : parseNoFrag s = .ok u)
    (hh : u.host ≠ []) : u.path = [] ∨ u.path.head? = some '/' := by
  unfold parseNoFrag at h
  split at h
  · simp at h
  · split at h
    · injection h with h2
      subst h2
      simp at hh
    · cases hg : getScheme s with
      | error e => rw [hg] at h; simp at h
      | ok p =>
        obtain ⟨sc0, rest0⟩ := p
        rw [hg] at h
        simp only at h
        rcases hq : querySplitGo rest0 with ⟨rest, fq, rawQuery⟩
        rw [hq] at h
        simp only at h
        split at h
        · split at h
          · injection h with h2
            subst h2
            simp at hh
          · split at h
            · simp at h
            · exact parseAfterScheme_shape _ _ _ _ u h hh
        · exact parseAfterScheme_shape _ _ _ _ u h hh

theorem urlParse_shape (uri : List Char) (u : URL) (h : urlParse uri = .ok u)
    (hh : u.host ≠ []) : u.path = [] ∨ u.path.head? = some '/' := by
  unfold urlParse at h
  rcases hc : cutChar '#' uri with ⟨u0, frag, fnd⟩
  rw [hc] at h
  simp only at h
  cases hp : parseNoFrag u0 with
  | error e => rw [hp] at h; simp at h
  | ok u1 =>
    rw [hp] at h
    simp only at h
    split at h
    · injection h with h2
      subst h2
      exact parseNoFrag_shape u0 u1 hp hh
    · cases hf : unescapeGo .fragment frag with
      | error e => rw [hf] at h; simp at h
      | ok f =>
        rw [hf] at h
        simp only at h
        injection h with h2
        subst h2
        exact parseNoFrag_shape u0 u1 hp (by simpa using hh)

/-! ## Claim C4: fields of a successful `FromURI` -/

/-- Claim C4: whenever `FromURI(uri)` succeeds, the returned bucket is the
parsed URL's host and the key is the parsed URL's (decoded) path with the
leading separator stripped — empty when the path is absent or exactly the
root `"/"`; in particular `"s3://b"` and `"s3://b/"` parse identically. -/
theorem fromURI_success_fields :
    (∀ uri u, urlParse uri = .ok u → u.scheme = s3SchemeChars → u.host ≠ [] →
      fromURI uri = (⟨u.host, specStripLeadingSep u.path⟩, none)) ∧
    fromURI "s3://b".data = fromURI "s3://b/".data := by
  constructor
  · intro uri u hp hs hh
    have hshape := urlParse_shape uri u hp hh
    have hl : ¬u.host.length = 0 := by simpa [List.length_eq_zero] using hh
    have hcond : ¬(¬u.scheme = s3SchemeChars ∨ u.host.length = 0) := by
      push_neg
      exact ⟨hs, hl⟩
    simp only [fromURI, hp, if_neg hcond]
    rcases hshape with hnil | hcons
    · simp [hnil, specStripLeadingSep]
    · cases hp2 : u.path with
      | nil => simp [specStripLeadingSep, hp2]
      | cons c t =>
        rw [hp2] at hcons
        have hc : c = '/' := by simpa using hcons
        subst hc
        cases t with
        | nil => simp [specStripLeadingSep]
        | cons d t2 => simp [specStripLeadingSep]
  · decide

/-- Witness for C4 at the concrete input `"s3://test_bucket/test_dir/test_key"`
of the repository's test table. -/
theorem fromURI_success_fields_witness :
    urlParse "s3://test_bucket/test_dir/test_key".data =
      .ok { scheme := s3SchemeChars, host := "test_bucket".data,
            path := "/test_dir/test_key".data } ∧
    fromURI "s3://test_bucket/test_dir/test_key".data =
      (⟨"test_bucket".data, specStripLeadingSep "/test_dir/test_key".data⟩, none) :=
  ⟨by decide, fromURI_success_fields.1 "s3://test_bucket/test_dir/test_key".data
    { scheme := s3SchemeChars, host := "test_bucket".data, path := "/test_dir/test_key".data }
    (by decide) (by decide) (by decide)⟩

/-! ## Claim C7: concrete failure cases of `FromURI` -/

/-- Claim C7: `FromURI("https://test_bucket/test_key")` fails with the parse
error carrying the full input string, and `FromURI("s3:/test_bucket/test_key")`
fails with the parse error as well, because the single-slash scheme separator
leaves the parsed host empty (the URL parses fine, with scheme `s3`, an empty
host, and the whole remainder as rooted path). -/
theorem fromURI_bad_scheme_and_host :
    fromURI "https://test_bucket/test_key".data =
      (⟨[], []⟩, some (.parseError "https://test_bucket/test_key".data)) ∧
    fromURI "s3:/test_bucket/test_key".data =
      (⟨[], []⟩, some (.parseError "s3:/test_bucket/test_key".data)) ∧
    urlParse "s3:/test_bucket/test_key".data =
      .ok { scheme := s3SchemeChars, path := "/test_bucket/test_key".data,
            omitHost := true } := by
  decide

/-! ## Claim C9: on error, `FromURI` returns the zero `Path` -/

/-- Claim C9: whenever `FromURI` returns a non-nil error — the `ParseError`
or any error propagated from `url.Parse` — the accompanying `Path` value is
the zero path `{Bucket: "", Key: ""}`. -/
theorem fromURI_error_zero_path (uri : List Char) (e : S3Err)
    (h : (fromURI uri).2 = some e) : (fromURI uri).1 = ⟨[], []⟩ := by
  cases hp : urlParse uri with
  | error e2 => simp [fromURI, hp]
  | ok u =>
    simp only [fromURI, hp] at h ⊢
    split at h <;> simp_all

/-- Witness for C9 at the concrete input `"x"` (no scheme, hence the parse
error). -/
theorem fromURI_error_zero_path_witness :
    (fromURI "x".data).2 = some (.parseError "x".data) ∧ (fromURI "x".data).1 = ⟨[], []⟩ :=
  ⟨by decide, fromURI_error_zero_path "x".data (.parseError "x".data) (by decide)⟩

/-! ## Claim C3: error characterization of `FromURI` -/

/-- Counterexample to C3 as stated: `"s3://b/%zz"` has scheme `s3` and a
non-empty host, yet `FromURI` fails — and the error is not the `ParseError`
carrying the input, but the escape error propagated from `url.Parse`.  So
scheme/host validity does not characterize the error cases, and the
`ParseError` is not the only failure mode. -/
theorem fromURI_extra_failure_mode :
    (fromURI "s3://b/%zz".data).2 = some (.urlError (.escapeError "%zz".data)) ∧
    (fromURI "s3://b/%zz".data).2 ≠ some (.parseError "s3://b/%zz".data) := by
  decide

/-- Claim C3 (amended): `FromURI(uri)` succeeds iff `url.Parse(uri)` succeeds
with scheme `"s3"` and a non-empty host.  When parsing succeeds but the
scheme or host is invalid, the error is the `ParseError` carrying `uri`;
when `url.Parse` itself fails (control bytes, malformed percent escapes,
invalid host/port/userinfo), that error is returned instead — an additional
failure mode. -/
theorem fromURI_error_characterization (uri : List Char) :
    ((fromURI uri).2 = none ↔
      ∃ u, urlParse uri = .ok u ∧ u.scheme = s3SchemeChars ∧ u.host ≠ []) ∧
    (∀ u, urlParse uri = .ok u → u.scheme ≠ s3SchemeChars ∨ u.host = [] →
      (fromURI uri).2 = some (.parseError uri)) ∧
    (∀ e, urlParse uri = .error e → (fromURI uri).2 = some (.urlError e)) := by
  refine ⟨?_, ?_, ?_⟩
  · constructor
    · intro h
      cases hp : urlParse uri with
      | error e2 => simp [fromURI, hp] at h
      | ok u =>
        refine ⟨u, rfl, ?_⟩
        simp only [fromURI, hp] at h
        split at h
        · exact absurd h (by simp)
        · rename_i hc
          push_neg at hc
          exact ⟨hc.1, by simpa [List.length_eq_zero] using hc.2⟩
    · rintro ⟨u, hp, hs, hh⟩
      have hl : u.host.length ≠ 0 := by simpa [List.length_eq_zero] using hh
      simp [fromURI, hp, hs, hl]
  · intro u hp hbad
    have : ¬(u.scheme = s3SchemeChars) ∨ u.host.length = 0 := by
      rcases hbad with h | h
      · exact Or.inl h
      · exact Or.inr (by simp [h])
    simp only [fromURI, hp]
    split
    · rfl
    · rename_i hc
      push_neg at hc
      rcases this with h | h
      · exact absurd hc.1 h
      · exact absurd h hc.2
  · intro e hp
    simp [fromURI, hp]

/-- Witness for C3 at concrete inputs: `"s3://b"` succeeds (via the
right-to-left direction of the characterization), and `""` fails with the
`ParseError` (empty scheme). -/
theorem fromURI_error_characterization_witness :
    (fromURI "s3://b".data).2 = none ∧ (fromURI [] ).2 = some (.parseError []) :=
  ⟨(fromURI_error_characterization "s3://b".data).1.mpr
      ⟨{ scheme := s3SchemeChars, host := "b".data }, by decide, by decide, by decide⟩,
    (fromURI_error_characterization []).2.1 { } (by decide) (by decide)⟩

/-! ## Lemmas about trimming -/

theorem dropWhile_slash_head?_ne (l : List Char) :
    (l.dropWhile (fun c => c == '/')).head? ≠ some '/' := by
  induction l with
  | nil => simp
  | cons c t ih =>
    by_cases h : c = '/'
    · subst h
      rw [List.dropWhile_cons_of_pos (by simp)]
      exact ih
    · rw [List.dropWhile_cons_of_neg (by simpa using h)]
      simpa using h

theorem dropWhile_head?_eq_self (l : List Char) (h : l.head? ≠ some '/') :
    l.dropWhile (fun c => c == '/') = l := by
  cases l with
  | nil => rfl
  | cons c t =>
    have hc : c ≠ '/' := by
      intro e
      exact h (by simp [e])
    exact List.dropWhile_cons_of_neg (by simpa using hc)

theorem dropWhile_getLast?_eq (p : Char → Bool) (l : List Char)
    (h : l.dropWhile p ≠ []) : (l.dropWhile p).getLast? = l.getLast? := by
  induction l with
  | nil => rfl
  | cons c t ih =>
    by_cases hc : p c
    · rw [List.dropWhile_cons_of_pos hc] at h ⊢
      have ht : t ≠ [] := by
        intro e
        subst e
        simp at h
      rw [ih h]
      cases t with
      | nil => exact absurd rfl ht
      | cons d t2 => rw [List.getLast?_cons_cons]
    · rw [List.dropWhile_cons_of_neg hc]

theorem getLast?_reverse_eq (l : List Char) : l.reverse.getLast? = l.head? := by
  have h := List.head?_reverse l.reverse
  rw [List.reverse_reverse] at h
  exact h.symm

theorem trim_getLast?_ne (s : List Char) :
    (stringsTrimSlash s).getLast? ≠ some '/' := by
  unfold stringsTrimSlash
  rw [getLast?_reverse_eq]
  exact dropWhile_slash_head?_ne _

theorem trim_head?_ne (s : List Char) :
    (stringsTrimSlash s).head? ≠ some '/' := by
  unfold stringsTrimSlash
  rw [List.head?_reverse]
  by_cases h : ((s.dropWhile (fun c => c == '/')).reverse.dropWhile (fun c => c == '/')) = []
  · simp [h]
  · rw [dropWhile_getLast?_eq _ _ h, getLast?_reverse_eq]
    exact dropWhile_slash_head?_ne s

theorem trim_eq_self (s : List Char) (h1 : s.head? ≠ some '/') (h2 : s.getLast? ≠ some '/') :
    stringsTrimSlash s = s := by
  unfold stringsTrimSlash
  rw [dropWhile_head?_eq_self s h1,
    dropWhile_head?_eq_self s.reverse (by rwa [List.head?_reverse]),
    List.reverse_reverse]

/-! ## Lemmas about `interSegs` -/

theorem interSegs_cons_of_ne_nil (s : List Char) (rest : List (List Char)) (h : rest ≠ []) :
    interSegs (s :: rest) = s ++ '/' :: interSegs rest := by
  cases rest with
  | nil => exact absurd rfl h
  | cons b r2 => rfl

theorem head?_ne_slash_of_goodSeg (s : List Char) (hg : goodSeg s) :
    s.head? ≠ some '/' := by
  obtain ⟨hne, hsl, -, -⟩ := hg
  cases s with
  | nil => exact absurd rfl hne
  | cons c t =>
    have := hsl c (by simp)
    simpa using this

theorem getLast?_ne_slash_of_goodSeg (s : List Char) (hg : goodSeg s) :
    s.getLast? ≠ some '/' := by
  obtain ⟨hne, hsl, -, -⟩ := hg
  rw [← List.head?_reverse]
  cases hr : s.reverse with
  | nil => simp
  | cons c t =>
    have hc : c ∈ s := by
      rw [← List.mem_reverse, hr]
      simp
    simpa using hsl c hc

theorem interSegs_ne_nil (segs : List (List Char)) (hne : segs ≠ [])
    (hg : ∀ s ∈ segs, goodSeg s) : interSegs segs ≠ [] := by
  cases segs with
  | nil => exact absurd rfl hne
  | cons s rest =>
    have hs : goodSeg s := hg s (by simp)
    cases rest with
    | nil => exact hs.1
    | cons b r2 => simp [interSegs, hs.1]

theorem interSegs_head?_ne (segs : List (List Char)) (hg : ∀ s ∈ segs, goodSeg s) :
    (interSegs segs).head? ≠ some '/' := by
  cases segs with
  | nil => simp [interSegs]
  | cons s rest =>
    have hs : goodSeg s := hg s (by simp)
    cases rest with
    | nil => exact head?_ne_slash_of_goodSeg s hs
    | cons b r2 =>
      rw [interSegs_cons_of_ne_nil s _ (by simp),
        List.head?_append_of_ne_nil _ hs.1]
      exact head?_ne_slash_of_goodSeg s hs

theorem interSegs_getLast?_ne (segs : List (List Char)) (hg : ∀ s ∈ segs, goodSeg s) :
    (interSegs segs).getLast? ≠ some '/' := by
  induction segs with
  | nil => simp [interSegs]
  | cons s rest ih =>
    have hs : goodSeg s := hg s (by simp)
    cases rest with
    | nil => exact getLast?_ne_slash_of_goodSeg s hs
    | cons b r2 =>
      have hrest : ∀ x ∈ b :: r2, goodSeg x := fun x hx => hg x (by simp [hx])
      rw [interSegs_cons_of_ne_nil s _ (by simp),
        List.getLast?_append_of_ne_nil _ (by simp)]
      cases hr : interSegs (b :: r2) with
      | nil => exact absurd hr (interSegs_ne_nil _ (by simp) hrest)
      | cons y ys =>
        rw [List.getLast?_cons_cons, ← hr]
        exact ih hrest

theorem interSegs_append (a b : List (List Char)) (ha : a ≠ []) (hb : b ≠ []) :
    interSegs (a ++ b) = interSegs a ++ '/' :: interSegs b := by
  induction a with
  | nil => exact absurd rfl ha
  | cons s a2 ih =>
    cases a2 with
    | nil =>
      cases b with
      | nil => exact absurd rfl hb
      | cons x b2 => simp [interSegs_cons_of_ne_nil, interSegs]
    | cons s2 a3 =>
      rw [List.cons_append, interSegs_cons_of_ne_nil s _ (by simp),
        interSegs_cons_of_ne_nil s (s2 :: a3) (by simp), ih (by simp) ,
        List.append_assoc]
      rfl

/-! ## `path.Clean` is the identity on canonical paths -/

theorem cleanLoop_copy (seg : List Char) (hs : ∀ c ∈ seg, c ≠ '/') :
    ∀ (r out : List Char) (dd : Nat),
      cleanLoop false (seg ++ r) out dd true = cleanLoop false r (seg.reverse ++ out) dd true := by
  induction seg with
  | nil => intro r out dd; simp
  | cons c t ih =>
    intro r out dd
    have hc : ¬(c = '/') := hs c (by simp)
    rw [List.cons_append]
    simp only [cleanLoop]
    rw [if_neg hc, ih (fun x hx => hs x (by simp [hx]))]
    simp [List.append_assoc]

theorem cleanLoop_true_slash (r out : List Char) (dd : Nat) :
    cleanLoop false ('/' :: r) out dd true = cleanLoop false r out dd false := by
  simp [cleanLoop]

theorem cleanLoop_seg_start (seg : List Char) (hg : goodSeg seg) (r out : List Char) (dd : Nat)
    (hr : r = [] ∨ r.head? = some '/') :
    cleanLoop false (seg ++ r) out dd false =
      cleanLoop false r (seg.reverse ++ (if out.length ≠ 0 then '/' :: out else out)) dd true := by
  obtain ⟨hne, hsl, hdot, hddot⟩ := hg
  cases seg with
  | nil => exact absurd rfl hne
  | cons c t =>
    have hc : ¬(c = '/') := hsl c (by simp)
    have h2 : ¬(c = '.' ∧ (t ++ r = [] ∨ (t ++ r).head? = some '/')) := by
      rintro ⟨rfl, hh⟩
      cases t with
      | nil => exact hdot rfl
      | cons d t2 =>
        rcases hh with hh | hh
        · simp at hh
        · have : d = '/' := by simpa using hh
          exact hsl d (by simp) this
    have h3 : ¬(c = '.' ∧ (t ++ r).head? = some '.' ∧
        ((t ++ r).tail = [] ∨ (t ++ r).tail.head? = some '/')) := by
      rintro ⟨rfl, hh, hhh⟩
      cases t with
      | nil =>
        rcases hr with rfl | hr2
        · simp at hh
        · simp only [List.nil_append] at hh
          rw [hr2] at hh
          simp at hh
      | cons d t2 =>
        have hd : d = '.' := by simpa using hh
        subst hd
        cases t2 with
        | nil => exact hddot rfl
        | cons e t3 =>
          have he : e = '/' := by
            rcases hhh with h | h
            · simp at h
            · simpa using h
          exact hsl e (by simp) he
    rw [List.cons_append]
    conv_lhs => rw [cleanLoop.eq_def]
    simp only []
    rw [if_neg hc, if_neg h2, if_neg h3,
      cleanLoop_copy t (fun x hx => hsl x (by simp [hx]))]
    by_cases ho : out.length = 0
    · simp [ho, List.append_assoc]
    · simp [ho, List.append_assoc]

theorem cleanLoop_chain (segs : List (List Char)) (hg : ∀ s ∈ segs, goodSeg s)
    (hne : segs ≠ []) :
    ∀ (t out : List Char) (dd : Nat), (t = [] ∨ t.head? = some '/') →
      cleanLoop false (interSegs segs ++ t) out dd false =
        cleanLoop false t
          ((interSegs segs).reverse ++ (if out.length ≠ 0 then '/' :: out else out)) dd true := by
  induction segs with
  | nil => exact absurd rfl hne
  | cons s rest ih =>
    intro t out dd ht
    have hgs : goodSeg s := hg s (by simp)
    cases rest with
    | nil => exact cleanLoop_seg_start s hgs t out dd ht
    | cons s2 r3 =>
      have hrest : ∀ x ∈ s2 :: r3, goodSeg x := fun x hx => hg x (by simp [hx])
      rw [interSegs_cons_of_ne_nil s _ (by simp), List.append_assoc, List.cons_append,
        cleanLoop_seg_start s hgs ('/' :: (interSegs (s2 :: r3) ++ t)) out dd (Or.inr rfl),
        cleanLoop_true_slash,
        ih hrest (by simp) t _ dd ht]
      have hx : s.reverse ++ (if out.length ≠ 0 then '/' :: out else out) ≠ [] := by
        have : s.reverse ≠ [] := by simpa using hgs.1
        simp [this]
      rw [if_pos (by simpa [List.length_eq_zero] using hx)]
      congr 1
      simp [List.reverse_append, List.append_assoc]

theorem pathClean_nonrooted (p : List Char) (hne : p ≠ []) (hh : p.head? ≠ some '/') :
    pathClean p = if (cleanLoop false p [] 0 false).length = 0 then ['.']
      else (cleanLoop false p [] 0 false).reverse := by
  unfold pathClean
  rw [if_neg hne]
  simp only []
  rw [if_neg hh]

theorem pathClean_canonical (segs : List (List Char)) (hg : ∀ s ∈ segs, goodSeg s)
    (hne : segs ≠ []) :
    pathClean (interSegs segs) = interSegs segs ∧
    pathClean (interSegs segs ++ ['/']) = interSegs segs := by
  have hX : interSegs segs ≠ [] := interSegs_ne_nil segs hne hg
  have hXh : (interSegs segs).head? ≠ some '/' := interSegs_head?_ne segs hg
  constructor
  · have h2 : cleanLoop false (interSegs segs) [] 0 false = (interSegs segs).reverse ++ [] := by
      have h := cleanLoop_chain segs hg hne [] [] 0 (Or.inl rfl)
      rw [List.append_nil] at h
      rw [h]
      simp [cleanLoop]
    rw [pathClean_nonrooted _ hX hXh, h2]
    simp [hX]
  · have hYne : interSegs segs ++ ['/'] ≠ [] := by simp
    have hYh : (interSegs segs ++ ['/']).head? ≠ some '/' := by
      rw [List.head?_append_of_ne_nil _ hX]
      exact hXh
    have h3 : cleanLoop false (interSegs segs ++ ['/']) [] 0 false =
        (interSegs segs).reverse ++ [] := by
      rw [cleanLoop_chain segs hg hne ['/'] [] 0 (Or.inr rfl), cleanLoop_true_slash]
      simp [cleanLoop]
    rw [pathClean_nonrooted _ hYne hYh, h3]
    simp [hX]

theorem joinBuf_pair (a b : List Char) :
    joinBuf [a, b] = if a = [] then b else a ++ '/' :: b := by
  by_cases h : a = []
  · subst h
    by_cases hb : b = [] <;> simp [joinBuf, hb]
  · have hl : a.length > 0 := List.length_pos.mpr h
    simp [joinBuf, h, hl, Nat.pos_iff_ne_zero.mp hl]

theorem pathJoinGo_pair_ne (a b : List Char) (ha : a ≠ []) :
    pathJoinGo [a, b] = pathClean (a ++ '/' :: b) := by
  unfold pathJoinGo
  rw [joinBuf_pair, if_neg ha, if_neg (by simp [List.length_eq_zero, ha])]

theorem pathJoinGo_nil_left (b : List Char) :
    pathJoinGo [[], b] = if b = [] then [] else pathClean b := by
  by_cases hb : b = []
  · subst hb
    simp [pathJoinGo, joinBuf]
  · unfold pathJoinGo
    rw [joinBuf_pair, if_pos rfl, if_neg (by simp [List.length_eq_zero, hb]), if_neg hb]

/-! ## Claim C2: `Join` against "trim and concatenate" -/

/-- Counterexample to C2 as stated: for bucket `"a//b"` and key `"c"`, `Join`
yields `"a/b/c"` — the interior duplicate separator is collapsed by
`path.Clean` even though it was not introduced by trimming — and not the
claimed `trim(bucket) + "/" + trim(key) = "a//b/c"`. -/
theorem join_trim_counterexample :
    S3Path.join ⟨"a//b".data, "c".data⟩ = "a/b/c".data ∧
    stringsTrimSlash "a//b".data ++ '/' :: stringsTrimSlash "c".data = "a//b/c".data ∧
    S3Path.join ⟨"a//b".data, "c".data⟩ ≠
      stringsTrimSlash "a//b".data ++ '/' :: stringsTrimSlash "c".data := by
  decide

/-- Claim C2 (amended): for every Path whose trimmed bucket and trimmed key
are non-empty sequences of canonical segments (non-empty, slash-free, not
`.` or `..`), `Join` equals `trim(bucket) ++ "/" ++ trim(key)`; beyond the
claim's trimming, `Join` also collapses interior duplicate separators and
resolves `.`/`..` segments (Go `path.Clean`), and omits the separator when
a trimmed side is empty.  `Join` has no error conditions (it is total by
construction). -/
theorem join_trim_canonical (p : S3Path) (bsegs ksegs : List (List Char))
    (hb : stringsTrimSlash p.bucket = interSegs bsegs)
    (hk : stringsTrimSlash p.key = interSegs ksegs)
    (hbg : ∀ s ∈ bsegs, goodSeg s) (hkg : ∀ s ∈ ksegs, goodSeg s)
    (hbne : bsegs ≠ []) (hkne : ksegs ≠ []) :
    p.join = stringsTrimSlash p.bucket ++ '/' :: stringsTrimSlash p.key := by
  unfold S3Path.join
  rw [hb, hk, pathJoinGo_pair_ne _ _ (interSegs_ne_nil bsegs hbne hbg),
    ← interSegs_append bsegs ksegs hbne hkne]
  exact (pathClean_canonical (bsegs ++ ksegs)
    (fun s hs => (List.mem_append.mp hs).elim (hbg s) (hkg s)) (by simp [hbne])).1

/-- Witness for C2 (amended) at the test table's input
`{"/test_bucket/", "/test_key/"}`. -/
theorem join_trim_canonical_witness :
    stringsTrimSlash "/test_bucket/".data = interSegs ["test_bucket".data] ∧
    S3Path.join ⟨"/test_bucket/".data, "/test_key/".data⟩ =
      stringsTrimSlash "/test_bucket/".data ++ '/' :: stringsTrimSlash "/test_key/".data :=
  ⟨by decide,
    join_trim_canonical ⟨"/test_bucket/".data, "/test_key/".data⟩
      ["test_bucket".data] ["test_key".data]
      (by decide) (by decide) (by decide) (by decide) (by decide) (by decide)⟩

/-! ## Claim C10: degenerate cases of `Join` -/

/-- Counterexample to C10 as stated: for bucket `"a//b"` and an empty key,
`Join` returns `"a/b"`, not the trimmed bucket `"a//b"` — the interior
duplicate separator is collapsed as well. -/
theorem join_degenerate_counterexample :
    S3Path.join ⟨"a//b".data, []⟩ = "a/b".data ∧
    stringsTrimSlash "a//b".data = "a//b".data ∧
    S3Path.join ⟨"a//b".data, []⟩ ≠ stringsTrimSlash "a//b".data := by
  decide

/-- Claim C10 (amended): when the key is empty and the trimmed bucket is a
canonical segment sequence, `Join` returns exactly the trimmed bucket with
no trailing separator; symmetrically for an empty bucket with a canonical
trimmed key; when both fields are empty `Join` returns the empty string.
In general the returned field is additionally cleaned (interior duplicate
separators collapsed, `.`/`..` resolved) by Go `path.Clean`. -/
theorem join_degenerate :
    (∀ (p : S3Path) (segs : List (List Char)), p.key = [] →
      stringsTrimSlash p.bucket = interSegs segs → (∀ s ∈ segs, goodSeg s) →
      p.join = stringsTrimSlash p.bucket) ∧
    (∀ (p : S3Path) (segs : List (List Char)), p.bucket = [] →
      stringsTrimSlash p.key = interSegs segs → (∀ s ∈ segs, goodSeg s) →
      p.join = stringsTrimSlash p.key) ∧
    (∀ p : S3Path, p.bucket = [] → p.key = [] → p.join = []) := by
  refine ⟨?_, ?_, ?_⟩
  · intro p segs hkey hb hg
    unfold S3Path.join
    rw [hkey, hb]
    cases segs with
    | nil => decide
    | cons s rest =>
      rw [pathJoinGo_pair_ne _ _ (interSegs_ne_nil _ (by simp) hg)]
      exact (pathClean_canonical (s :: rest) hg (by simp)).2
  · intro p segs hbucket hk hg
    unfold S3Path.join
    rw [hbucket, hk]
    cases segs with
    | nil => decide
    | cons s rest =>
      have hX := interSegs_ne_nil (s :: rest) (by simp) hg
      rw [show stringsTrimSlash [] = [] from rfl, pathJoinGo_nil_left, if_neg hX]
      exact (pathClean_canonical (s :: rest) hg (by simp)).1
  · intro p h1 h2
    unfold S3Path.join
    rw [h1, h2]
    decide

/-- Witness for C10 (amended) at `{"/test_bucket/", ""}`, `{"", "/k/"}` and
`{"", ""}`. -/
theorem join_degenerate_witness :
    S3Path.join ⟨"/test_bucket/".data, []⟩ = stringsTrimSlash "/test_bucket/".data ∧
    S3Path.join ⟨[], "/k/".data⟩ = stringsTrimSlash "/k/".data ∧
    S3Path.join ⟨[], []⟩ = [] :=
  ⟨join_degenerate.1 ⟨"/test_bucket/".data, []⟩ ["test_bucket".data] rfl (by decide) (by decide),
    join_degenerate.2.1 ⟨[], "/k/".data⟩ ["k".data] rfl (by decide) (by decide),
    join_degenerate.2.2 ⟨[], []⟩ rfl rfl⟩

/-! ## Claim C6: `Append` -/

/-- Counterexample to C6 as stated: `Append` does not trim the leading
separator of the existing key — `Append({"b", "/k"}, "s")` has key
`"/k/s"`, not the claimed `trim("/k") + "/" + trim("s") = "k/s"`. -/
theorem append_counterexample :
    (s3Append ⟨"b".data, "/k".data⟩ "s".data).key = "/k/s".data ∧
    stringsTrimSlash "/k".data ++ '/' :: stringsTrimSlash "s".data = "k/s".data ∧
    (s3Append ⟨"b".data, "/k".data⟩ "s".data).key ≠
      stringsTrimSlash "/k".data ++ '/' :: stringsTrimSlash "s".data := by
  decide

/-- Claim C6 (amended): `Append(p, suffix)` always keeps the bucket, and its
key is Go `path.Join(p.Key, suffix)` — the parts are joined with a single
separator and the result is cleaned, but leading/trailing separators are
NOT first trimmed from the parts (a leading `/` on `p.Key` is preserved).
When both parts are canonical segment sequences the key is exactly
`p.Key ++ "/" ++ suffix`. -/
theorem append_fields :
    (∀ (p : S3Path) (s : List Char), (s3Append p s).bucket = p.bucket) ∧
    (∀ (p : S3Path) (s : List Char) (ksegs ssegs : List (List Char)),
      p.key = interSegs ksegs → s = interSegs ssegs →
      (∀ x ∈ ksegs, goodSeg x) → (∀ x ∈ ssegs, goodSeg x) → ksegs ≠ [] → ssegs ≠ [] →
      s3Append p s = ⟨p.bucket, p.key ++ '/' :: s⟩) := by
  constructor
  · intro p s
    rfl
  · intro p s ksegs ssegs hk hs hkg hsg hkne hsne
    unfold s3Append
    rw [hk, hs, pathJoinGo_pair_ne _ _ (interSegs_ne_nil ksegs hkne hkg),
      ← interSegs_append ksegs ssegs hkne hsne,
      (pathClean_canonical (ksegs ++ ssegs)
        (fun x hx => (List.mem_append.mp hx).elim (hkg x) (hsg x)) (by simp [hkne])).1,
      interSegs_append ksegs ssegs hkne hsne]

/-- Witness for C6 (amended) at `Append({"b", "k"}, "s")`. -/
theorem append_fields_witness :
    (s3Append ⟨"b".data, "/k".data⟩ "s".data).bucket = "b".data ∧
    s3Append ⟨"b".data, "k".data⟩ "s".data = ⟨"b".data, "k/s".data⟩ :=
  ⟨append_fields.1 ⟨"b".data, "/k".data⟩ "s".data,
    append_fields.2 ⟨"b".data, "k".data⟩ "s".data ["k".data] ["s".data]
      (by decide) (by decide) (by decide) (by decide) (by decide) (by decide)⟩

/-! ## Claim C5: `ToURI` -/

theorem escapeGo_id (mode : Encoding) (l : List Char)
    (h : ∀ c ∈ l, shouldEscape c mode = false) : escapeGo mode l = l := by
  induction l with
  | nil => rfl
  | cons c t ih =>
    have hc : shouldEscape c mode = false := h c (by simp)
    simp only [escapeGo, hc]
    simp [ih (fun x hx => h x (by simp [hx]))]

theorem uString_s3_path (pa : List Char) (hne : pa ≠ []) (hstar : pa ≠ ['*']) :
    uString { scheme := s3SchemeChars, path := pa } =
      "s3://".data ++ escapeGo .path pa := by
  unfold uString escapedPath unescapesTo
  simp [hne, hstar, s3SchemeChars]

theorem toURI_unescaped (p : S3Path) (hne : p.join ≠ [])
    (hesc : ∀ c ∈ p.join, shouldEscape c .path = false) :
    p.toURI = "s3://".data ++ p.join := by
  have hstar : p.join ≠ ['*'] := by
    intro h
    have h2 := hesc '*' (by rw [h]; simp)
    exact absurd h2 (by decide)
  have hu0 : urlParse s3SchemeSlashes = .ok { scheme := s3SchemeChars } := by decide
  unfold S3Path.toURI
  rw [hu0]
  simp only []
  rw [uString_s3_path p.join hne hstar, escapeGo_id _ _ hesc]

/-- Counterexample to C5 as stated: for key `"a b"`, `ToURI` percent-escapes
the space character, so the result is not `"s3://" ++ Join(p)`. -/
theorem toURI_escape_counterexample :
    S3Path.toURI ⟨"b".data, "a b".data⟩ = "s3://b/a%20b".data ∧
    S3Path.toURI ⟨"b".data, "a b".data⟩ ≠
      "s3://".data ++ S3Path.join ⟨"b".data, "a b".data⟩ := by
  decide

/-- Claim C5 (amended): `ToURI(p)` equals `"s3://" ++ Join(p)` whenever
`Join(p)` is non-empty and contains no character that Go's URL path
escaping escapes; in general characters outside that set are
percent-escaped (e.g. a space becomes `%20`), and when `Join(p)` is empty
the result is just `"s3:"`.  `ToURI` has no error conditions (it is total
by construction), and `ToURI({"test_bucket", ""}) = "s3://test_bucket"`. -/
theorem toURI_spec :
    (∀ p : S3Path, p.join ≠ [] → (∀ c ∈ p.join, shouldEscape c .path = false) →
      p.toURI = "s3://".data ++ p.join) ∧
    S3Path.toURI ⟨"test_bucket".data, []⟩ = "s3://test_bucket".data ∧
    S3Path.toURI ⟨[], []⟩ = "s3:".data := by
  refine ⟨fun p h1 h2 => toURI_unescaped p h1 h2, by decide, by decide⟩

/-- Witness for C5 (amended) at `{"test_bucket", "test_key"}`. -/
theorem toURI_spec_witness :
    S3Path.join ⟨"test_bucket".data, "test_key".data⟩ ≠ [] ∧
    S3Path.toURI ⟨"test_bucket".data, "test_key".data⟩ =
      "s3://".data ++ S3Path.join ⟨"test_bucket".data, "test_key".data⟩ :=
  ⟨by decide, toURI_spec.1 ⟨"test_bucket".data, "test_key".data⟩ (by decide) (by decide)⟩

/-! ## Claim C1: the canonical round trip

Safe characters pass unchanged through escaping, host validation and
unescaping; the lemmas below push a `"s3://" ++ bucket ++ "/" ++ key`
string through every stage of `urlParse`.
-/

theorem safe_ne_of_unsafe {c : Char} (hc : safeChar c) {d : Char} (hd : ¬safeChar d) :
    c ≠ d := fun h => hd (h ▸ hc)

theorem safe_shouldEscape (c : Char) (m : Encoding) (hc : safeChar c)
    (hm : m = .path ∨ m = .host) : shouldEscape c m = false := by
  rcases hc with h | h | rfl | rfl | rfl | rfl
  · unfold shouldEscape
    rw [if_pos (Or.inl h)]
  · unfold shouldEscape
    rw [if_pos (Or.inr h)]
  all_goals rcases hm with rfl | rfl <;> decide

theorem safe_or_slash_shouldEscape_path (c : Char) (h : safeChar c ∨ c = '/') :
    shouldEscape c .path = false := by
  rcases h with h | rfl
  · exact safe_shouldEscape c .path h (Or.inl rfl)
  · decide

theorem safe_not_ctl (c : Char) (hc : safeChar c) :
    ¬(c.toNat < 0x20 ∨ c.toNat = 0x7f) := by
  have ha : 'a'.toNat = 97 := rfl
  have hz : 'z'.toNat = 122 := rfl
  have hA : 'A'.toNat = 65 := rfl
  have hZ : 'Z'.toNat = 90 := rfl
  have h0 : '0'.toNat = 48 := rfl
  have h9 : '9'.toNat = 57 := rfl
  rcases hc with h | h | rfl | rfl | rfl | rfl
  · simp only [isAlphaGo, isLowerGo, isUpperGo, ha, hz, hA, hZ] at h
    simp only [decide_eq_true_eq, Bool.or_eq_true, Bool.and_eq_true] at h
    omega
  · simp only [isDigitGo, h0, h9] at h
    simp only [decide_eq_true_eq, Bool.and_eq_true] at h
    omega
  all_goals decide

theorem unescapeGo_host_id (l : List Char) (h : ∀ c ∈ l, safeChar c) :
    unescapeGo .host l = .ok l := by
  induction l with
  | nil => rfl
  | cons c t ih =>
    have hc := h c (by simp)
    have h1 : ¬(c = '%') := safe_ne_of_unsafe hc (by decide)
    have h2 : ¬(c = '+') := safe_ne_of_unsafe hc (by decide)
    have h3 : ¬((Encoding.host = .host ∨ Encoding.host = .zone) ∧
        c.toNat < 0x80 ∧ shouldEscape c .host) := by
      rintro ⟨-, -, hesc⟩
      rw [safe_shouldEscape c .host hc (Or.inr rfl)] at hesc
      exact absurd hesc (by simp)
    unfold unescapeGo
    rw [if_neg h1, if_neg h2, if_neg h3, ih (fun x hx => h x (by simp [hx]))]

theorem unescapeGo_path_id (l : List Char) (h : ∀ c ∈ l, safeChar c ∨ c = '/') :
    unescapeGo .path l = .ok l := by
  induction l with
  | nil => rfl
  | cons c t ih =>
    have hc := h c (by simp)
    have h1 : ¬(c = '%') := by
      rcases hc with hs | rfl
      · exact safe_ne_of_unsafe hs (by decide)
      · decide
    have h2 : ¬(c = '+') := by
      rcases hc with hs | rfl
      · exact safe_ne_of_unsafe hs (by decide)
      · decide
    have h3 : ¬((Encoding.path = .host ∨ Encoding.path = .zone) ∧
        c.toNat < 0x80 ∧ shouldEscape c .path) := by
      rintro ⟨hm, -, -⟩
      rcases hm with hm | hm <;> simp at hm
    unfold unescapeGo
    rw [if_neg h1, if_neg h2, if_neg h3, ih (fun x hx => h x (by simp [hx]))]

theorem cutChar_not_mem (sep : Char) (s : List Char) (h : sep ∉ s) :
    cutChar sep s = (s, [], false) := by
  induction s with
  | nil => rfl
  | cons c t ih =>
    have hc : ¬(c = sep) := fun e => h (by simp [e])
    simp only [cutChar, if_neg hc, ih (fun hm => h (by simp [hm]))]

theorem cutChar_append (sep : Char) (a b : List Char) (h : sep ∉ a) :
    cutChar sep (a ++ sep :: b) = (a, b, true) := by
  induction a with
  | nil => simp [cutChar]
  | cons c t ih =>
    have hc : ¬(c = sep) := fun e => h (by simp [e])
    have ih2 := ih (fun hm => h (by simp [hm]))
    simp only [List.cons_append, cutChar, List.append_eq, if_neg hc, ih2]

theorem splitAtLastChar_not_mem (sep : Char) (s : List Char) (h : sep ∉ s) :
    splitAtLastChar sep s = none := by
  induction s with
  | nil => rfl
  | cons c t ih =>
    have hc : ¬(c = sep) := fun e => h (by simp [e])
    simp only [splitAtLastChar, ih (fun hm => h (by simp [hm])), if_neg hc]

theorem getScheme_s3 (t : List Char) : getScheme ('s' :: '3' :: ':' :: t) = .ok (['s', '3'], t) := by
  simp +decide [getScheme, getSchemeGo]

theorem parseHostGo_safe (b : List Char) (hbs : ∀ c ∈ b, safeChar c) :
    parseHostGo b = .ok b := by
  have hbr : '[' ∉ b := fun hm => absurd (hbs '[' hm) (by decide)
  have hcol : ':' ∉ b := fun hm => absurd (hbs ':' hm) (by decide)
  have hhd : ¬(b.head? = some '[') := by
    intro h
    cases b with
    | nil => simp at h
    | cons c t =>
      have : c = '[' := by simpa using h
      exact hbr (by simp [this])
  unfold parseHostGo
  rw [if_neg hhd, splitAtLastChar_not_mem ':' b hcol]
  simp only []
  rw [unescapeGo_host_id b hbs]

theorem parseAuthorityGo_safe (b : List Char) (hbs : ∀ c ∈ b, safeChar c) :
    parseAuthorityGo b = .ok (none, b) := by
  have hat : '@' ∉ b := fun hm => absurd (hbs '@' hm) (by decide)
  unfold parseAuthorityGo
  rw [splitAtLastChar_not_mem '@' b hat]
  simp only []
  rw [parseHostGo_safe b hbs]

theorem setPathGo_safe (t : List Char) (hts : ∀ c ∈ t, safeChar c ∨ c = '/') :
    setPathGo t = .ok (t, []) := by
  unfold setPathGo
  rw [unescapeGo_path_id t hts]
  simp only []
  rw [if_pos (escapeGo_id .path t (fun c hc => safe_or_slash_shouldEscape_path c (hts c hc)))]

theorem splitKeepSep_safe (b t : List Char) (hbs : ∀ c ∈ b, safeChar c)
    (hsh : t = [] ∨ t.head? = some '/') :
    splitKeepSep '/' (b ++ t) = (b, t) := by
  have hslb : '/' ∉ b := fun hm => absurd (hbs '/' hm) (by decide)
  rcases hsh with rfl | hh
  · rw [List.append_nil]
    unfold splitKeepSep
    rw [cutChar_not_mem '/' b hslb]
    rfl
  · cases t with
    | nil => simp at hh
    | cons c t2 =>
      have hc : c = '/' := by simpa using hh
      subst hc
      unfold splitKeepSep
      rw [cutChar_append '/' b t2 hslb]
      rfl

theorem parseNoFrag_canonical (b t : List Char) (hbs : ∀ c ∈ b, safeChar c)
    (hts : ∀ c ∈ t, safeChar c ∨ c = '/') (hsh : t = [] ∨ t.head? = some '/')
    (hquest : '?' ∉ ('s' :: '3' :: ':' :: '/' :: '/' :: (b ++ t)))
    (hctl : hasCTL ('s' :: '3' :: ':' :: '/' :: '/' :: (b ++ t)) = false) :
    parseNoFrag ('s' :: '3' :: ':' :: '/' :: '/' :: (b ++ t)) =
      .ok { scheme := s3SchemeChars, host := b, path := t } := by
  unfold parseNoFrag
  rw [hctl]
  rw [if_neg (by simp)]
  rw [if_neg (by simp : ¬(('s' :: '3' :: ':' :: '/' :: '/' :: (b ++ t)) = ['*']))]
  rw [getScheme_s3]
  simp only []
  have hq : querySplitGo ('/' :: '/' :: (b ++ t)) = ('/' :: '/' :: (b ++ t), false, []) := by
    unfold querySplitGo
    have hql : ¬(('/' :: '/' :: (b ++ t)).getLast? = some '?') := by
      intro h
      exact hquest (by
        have := List.mem_of_mem_getLast? h
        simpa using this)
    rw [if_neg (fun hx => hql hx.1), cutChar_not_mem '?' _ (by
      intro hm
      exact hquest (by simpa using hm))]
  rw [hq]
  simp only []
  rw [if_neg (by simp)]
  have htl : toLowerGo ['s', '3'] = ['s', '3'] := by decide
  rw [htl]
  unfold parseAfterScheme
  rw [if_pos ⟨Or.inl (by simp), rfl⟩]
  have hdrop : ('/' :: '/' :: (b ++ t)).drop 2 = b ++ t := rfl
  rw [hdrop, splitKeepSep_safe b t hbs hsh]
  simp only []
  rw [parseAuthorityGo_safe b hbs]
  simp only []
  rw [setPathGo_safe t hts]
  rfl

theorem urlParse_canonical (b t : List Char) (hbs : ∀ c ∈ b, safeChar c)
    (hts : ∀ c ∈ t, safeChar c ∨ c = '/') (hsh : t = [] ∨ t.head? = some '/') :
    urlParse ('s' :: '3' :: ':' :: '/' :: '/' :: (b ++ t)) =
      .ok { scheme := s3SchemeChars, host := b, path := t } := by
  have hno : ∀ d : Char, ¬safeChar d → ¬(d = '/') → ¬(d = 's') → ¬(d = '3') → ¬(d = ':') →
      d ∉ ('s' :: '3' :: ':' :: '/' :: '/' :: (b ++ t)) := by
    intro d h1 h2 h3 h4 h5 hmem
    simp only [List.mem_cons, List.mem_append] at hmem
    rcases hmem with e | e | e | e | e | e | e
    · exact h3 e
    · exact h4 e
    · exact h5 e
    · exact h2 e
    · exact h2 e
    · exact h1 (hbs d e)
    · rcases hts d e with hs | hs
      · exact h1 hs
      · exact h2 hs
  have hhash : '#' ∉ ('s' :: '3' :: ':' :: '/' :: '/' :: (b ++ t)) :=
    hno '#' (by decide) (by decide) (by decide) (by decide) (by decide)
  have hquest : '?' ∉ ('s' :: '3' :: ':' :: '/' :: '/' :: (b ++ t)) :=
    hno '?' (by decide) (by decide) (by decide) (by decide) (by decide)
  have hctl : hasCTL ('s' :: '3' :: ':' :: '/' :: '/' :: (b ++ t)) = false := by
    unfold hasCTL
    rw [List.any_eq_false]
    intro c hc
    simp only [List.mem_cons, List.mem_append] at hc
    simp only [decide_eq_false_iff_not, decide_eq_true_eq]
    rcases hc with e | e | e | e | e | e | e
    · subst e; decide
    · subst e; decide
    · subst e; decide
    · subst e; decide
    · subst e; decide
    · exact safe_not_ctl c (hbs c e)
    · rcases hts c e with hs | hs
      · exact safe_not_ctl c hs
      · subst hs; decide
  unfold urlParse
  rw [cutChar_not_mem '#' _ hhash]
  simp only []
  rw [parseNoFrag_canonical b t hbs hts hsh hquest hctl]
  simp

theorem fromURI_canonical (b t : List Char) (hb : b ≠ []) (hbs : ∀ c ∈ b, safeChar c)
    (hts : ∀ c ∈ t, safeChar c ∨ c = '/') (hsh : t = [] ∨ t.head? = some '/') :
    fromURI ('s' :: '3' :: ':' :: '/' :: '/' :: (b ++ t)) = (⟨b, t.drop 1⟩, none) := by
  unfold fromURI
  rw [urlParse_canonical b t hbs hts hsh]
  simp only []
  rw [if_neg (by
    push_neg
    refine ⟨by simp, ?_⟩
    simpa [List.length_eq_zero] using hb)]
  rcases hsh with rfl | hh
  · rfl
  · cases t with
    | nil => rfl
    | cons c t2 =>
      have hc : c = '/' := by simpa using hh
      subst hc
      cases t2 with
      | nil => rfl
      | cons d t3 => simp [Nat.succ_le_iff]

/-- Counterexample to C1 as stated: the Path `{"test_bucket/", "test_key"}`
has a non-empty bucket, and `FromURI(ToURI(p))` succeeds — but it returns
the trimmed bucket `"test_bucket"`, not the original `"test_bucket/"`, so
the round trip does not reproduce `p` exactly. -/
theorem roundtrip_counterexample :
    (fromURI (S3Path.toURI ⟨"test_bucket/".data, "test_key".data⟩)).2 = none ∧
    (fromURI (S3Path.toURI ⟨"test_bucket/".data, "test_key".data⟩)).1 ≠
      ⟨"test_bucket/".data, "test_key".data⟩ := by
  decide

/-- Claim C1 (amended): `FromURI(ToURI(p))` succeeds and reproduces `p`
exactly for every Path whose bucket is a single canonical segment of safe
characters (non-empty, no `/`, not `.` or `..`, characters limited to
ASCII alphanumerics and `-._~`) and whose key is an interleaving of such
segments (so no leading/trailing/duplicate separators and no `.`/`..`
segments) — the empty-key case yields key `""` on round-trip.  For other
Paths the round trip returns the joined, cleaned, escaped form rather
than `p` itself. -/
theorem roundtrip_canonical (p : S3Path) (ksegs : List (List Char))
    (hb : goodSeg p.bucket) (hbs : ∀ c ∈ p.bucket, safeChar c)
    (hk : p.key = interSegs ksegs) (hkg : ∀ s ∈ ksegs, goodSeg s)
    (hks : ∀ c ∈ p.key, safeChar c ∨ c = '/') :
    fromURI p.toURI = (p, none) := by
  have htb : stringsTrimSlash p.bucket = p.bucket :=
    trim_eq_self _ (head?_ne_slash_of_goodSeg _ hb) (getLast?_ne_slash_of_goodSeg _ hb)
  cases hcase : ksegs with
  | nil =>
    have hkey : p.key = [] := by rw [hk, hcase]; rfl
    have hjoin : p.join = p.bucket := by
      unfold S3Path.join
      rw [hkey, htb]
      show pathJoinGo [p.bucket, stringsTrimSlash []] = p.bucket
      rw [show stringsTrimSlash [] = [] from rfl,
        pathJoinGo_pair_ne _ _ hb.1]
      exact (pathClean_canonical [p.bucket] (by simpa using hb) (by simp)).2
    have huri : p.toURI = 's' :: '3' :: ':' :: '/' :: '/' :: (p.bucket ++ []) := by
      rw [toURI_unescaped p (by rw [hjoin]; exact hb.1)
        (by
          rw [hjoin]
          intro c hc
          exact safe_shouldEscape c .path (hbs c hc) (Or.inl rfl)), hjoin]
      simp
    rw [huri, fromURI_canonical p.bucket [] hb.1 hbs (by simp) (Or.inl rfl)]
    have : p = ⟨p.bucket, p.key⟩ := rfl
    rw [this, hkey]
    rfl
  | cons s rest =>
    subst hcase
    have hkne : p.key ≠ [] := by
      rw [hk]
      exact interSegs_ne_nil _ (by simp) hkg
    have htk : stringsTrimSlash p.key = p.key := by
      rw [hk]
      exact trim_eq_self _ (interSegs_head?_ne _ hkg) (interSegs_getLast?_ne _ hkg)
    have hjoin : p.join = p.bucket ++ '/' :: p.key := by
      unfold S3Path.join
      rw [htb, htk, pathJoinGo_pair_ne _ _ hb.1]
      have hinter : p.bucket ++ '/' :: p.key = interSegs (p.bucket :: s :: rest) := by
        rw [interSegs_cons_of_ne_nil _ _ (by simp), ← hk]
      rw [hinter]
      exact (pathClean_canonical (p.bucket :: s :: rest)
        (by
          intro x hx
          rcases List.mem_cons.mp hx with rfl | hx2
          · exact hb
          · exact hkg x hx2) (by simp)).1
    have hesc : ∀ c ∈ p.join, shouldEscape c .path = false := by
      rw [hjoin]
      intro c hc
      rcases List.mem_append.mp hc with hcb | hck
      · exact safe_shouldEscape c .path (hbs c hcb) (Or.inl rfl)
      · rcases List.mem_cons.mp hck with rfl | hck2
        · decide
        · exact safe_or_slash_shouldEscape_path c (hks c hck2)
    have huri : p.toURI = 's' :: '3' :: ':' :: '/' :: '/' :: (p.bucket ++ '/' :: p.key) := by
      rw [toURI_unescaped p (by rw [hjoin]; simp [hb.1]) hesc, hjoin]
      simp
    rw [huri, fromURI_canonical p.bucket ('/' :: p.key) hb.1 hbs
      (by
        intro c hc
        rcases List.mem_cons.mp hc with rfl | hc2
        · exact Or.inr rfl
        · exact hks c hc2) (Or.inr rfl)]
    rfl

/-- Witness for C1 (amended) at `{"test_bucket", "test_dir/test_key"}`
(a test-table input) and its hypotheses. -/
theorem roundtrip_canonical_witness :
    goodSeg "test_bucket".data ∧
    "test_dir/test_key".data = interSegs ["test_dir".data, "test_key".data] ∧
    fromURI (S3Path.toURI ⟨"test_bucket".data, "test_dir/test_key".data⟩) =
      (⟨"test_bucket".data, "test_dir/test_key".data⟩, none) :=
  ⟨by decide, by decide,
    roundtrip_canonical ⟨"test_bucket".data, "test_dir/test_key".data⟩
      ["test_dir".data, "test_key".data]
      (by decide) (by decide) (by decide) (by decide) (by decide)⟩

/-! ## Claim C8: `Join` emits no leading, trailing or doubled separator -/

theorem getLast?_tail_ne_slash (c : Char) (rest : List Char)
    (h : (c :: rest).getLast? ≠ some '/') : rest.getLast? ≠ some '/' := by
  cases rest with
  | nil => simp
  | cons d t2 => rwa [List.getLast?_cons_cons] at h

theorem popSeg_length_ge (dd : Nat) : ∀ out : List Char, dd < out.length →
    dd ≤ (popSeg dd out).length := by
  intro out
  induction out with
  | nil => intro h; simp at h
  | cons c rest ih =>
    intro h
    unfold popSeg
    split
    · rename_i hcond
      exact ih hcond.1
    · simp only [List.length_cons] at h
      omega

theorem popSeg_chain (dd : Nat) : ∀ out : List Char, List.Chain' notSS out →
    List.Chain' notSS (popSeg dd out) := by
  intro out
  induction out with
  | nil => intro h; exact h
  | cons c rest ih =>
    intro h
    unfold popSeg
    split
    · exact ih h.tail
    · exact h.tail

theorem popSeg_getLast (dd : Nat) : ∀ out : List Char, out.getLast? ≠ some '/' →
    (popSeg dd out).getLast? ≠ some '/' := by
  intro out
  induction out with
  | nil => intro h; exact h
  | cons c rest ih =>
    intro h
    unfold popSeg
    split
    · exact ih (getLast?_tail_ne_slash c rest h)
    · exact getLast?_tail_ne_slash c rest h

theorem popSeg_head (dd : Nat) : ∀ out : List Char, List.Chain' notSS out →
    (dd = 0 ∨ (out.drop (out.length - dd)).head? = some '.') → dd < out.length →
    (popSeg dd out).head? ≠ some '/' := by
  intro out
  induction out with
  | nil => intro _ _ h; simp at h
  | cons c rest ih =>
    intro hch hsuf h
    unfold popSeg
    split
    · rename_i hcond
      refine ih hch.tail ?_ hcond.1
      rcases hsuf with h0 | hdot
      · exact Or.inl h0
      · refine Or.inr ?_
        have harith : (c :: rest).length - dd = (rest.length - dd) + 1 := by
          simp only [List.length_cons]
          omega
        rwa [harith, List.drop_succ_cons] at hdot
    · rename_i hcond
      push_neg at hcond
      by_cases hc : c = '/'
      · subst hc
        cases rest with
        | nil => simp
        | cons d t2 =>
          have hd := (List.chain'_cons.mp hch).1
          intro he
          have : d = '/' := by simpa using he
          exact hd ⟨rfl, this⟩
      · have hge : ¬(dd < rest.length) := fun hlt => hc (hcond hlt)
        have hdd : dd = rest.length := by
          simp only [List.length_cons] at h
          omega
        rcases hsuf with h0 | hdot
        · subst h0
          have hrest : rest = [] := List.length_eq_zero.mp hdd.symm
          subst hrest
          simp
        · have harith : (c :: rest).length - dd = 1 := by
            simp only [List.length_cons]
            omega
          rw [harith] at hdot
          simp only [List.drop_succ_cons, List.drop_zero] at hdot
          rw [hdot]
          simp

theorem popSeg_eq_drop (dd : Nat) : ∀ out : List Char, ∃ k, 1 ≤ k ∧ popSeg dd out = out.drop k := by
  intro out
  induction out with
  | nil => exact ⟨1, le_refl 1, rfl⟩
  | cons c rest ih =>
    unfold popSeg
    split
    · obtain ⟨k, hk1, hk2⟩ := ih
      exact ⟨k + 1, by omega, by simpa using hk2⟩
    · exact ⟨1, le_refl 1, by simp⟩

theorem popSeg_dd_suffix (dd : Nat) (out : List Char) (h : dd < out.length)
    (hdot : (out.drop (out.length - dd)).head? = some '.') :
    ((popSeg dd out).drop ((popSeg dd out).length - dd)).head? = some '.' := by
  have hdd1 : 1 ≤ dd := by
    by_contra h0
    have hz : dd = 0 := by omega
    subst hz
    rw [Nat.sub_zero, List.drop_length] at hdot
    simp at hdot
  obtain ⟨k, -, hk⟩ := popSeg_eq_drop dd out
  have hlen : dd ≤ (popSeg dd out).length := popSeg_length_ge dd out h
  rw [hk] at hlen ⊢
  rw [List.length_drop] at hlen ⊢
  have harith : k + (out.length - k - dd) = out.length - dd := by omega
  rw [List.drop_drop, harith]
  exact hdot

theorem cleanInv_pop (out : List Char) (dd : Nat) (h : CleanInv out dd)
    (hlt : dd < out.length) : CleanInv (popSeg dd out) dd := by
  obtain ⟨⟨hh, hl, hch⟩, hle, hsuf⟩ := h
  refine ⟨⟨popSeg_head dd out hch hsuf hlt, popSeg_getLast dd out hl, popSeg_chain dd out hch⟩,
    popSeg_length_ge dd out hlt, ?_⟩
  rcases hsuf with h0 | hdot
  · exact Or.inl h0
  · exact Or.inr (popSeg_dd_suffix dd out hlt hdot)

theorem cleanInv_cons (c : Char) (out : List Char) (dd : Nat) (h : CleanInv out dd)
    (hc : c ≠ '/') : CleanInv (c :: out) dd := by
  obtain ⟨⟨hh, hl, hch⟩, hle, hsuf⟩ := h
  refine ⟨⟨by simpa using hc, ?_, ?_⟩, by simp only [List.length_cons]; omega, ?_⟩
  · cases out with
    | nil => simpa using hc
    | cons d t => rw [List.getLast?_cons_cons]; exact hl
  · rw [List.chain'_cons']
    exact ⟨fun y hy hss => hc hss.1, hch⟩
  · rcases hsuf with h0 | hdot
    · exact Or.inl h0
    · refine Or.inr ?_
      have harith : (c :: out).length - dd = (out.length - dd) + 1 := by
        simp only [List.length_cons]
        omega
      rw [harith, List.drop_succ_cons]
      exact hdot

theorem cleanInv_push (c : Char) (out : List Char) (dd : Nat) (h : CleanInv out dd)
    (hc : c ≠ '/') :
    CleanInv (c :: (if out.length ≠ 0 then '/' :: out else out)) dd := by
  by_cases ho : out.length = 0
  · rw [if_neg (by omega)]
    exact cleanInv_cons c out dd h hc
  · rw [if_pos ho]
    obtain ⟨⟨hh, hl, hch⟩, hle, hsuf⟩ := h
    have hone : out ≠ [] := by
      intro e
      subst e
      simp at ho
    refine ⟨⟨by simpa using hc, ?_, ?_⟩, by simp only [List.length_cons]; omega, ?_⟩
    · rw [show c :: '/' :: out = [c, '/'] ++ out from rfl,
        List.getLast?_append_of_ne_nil _ hone]
      exact hl
    · rw [List.chain'_cons]
      refine ⟨fun hss => hc hss.1, ?_⟩
      rw [List.chain'_cons']
      refine ⟨fun y hy hss => ?_, hch⟩
      cases out with
      | nil => simp at hy
      | cons d t =>
        obtain rfl : d = y := by simpa using hy
        exact hh (by simpa using hss.2)
    · rcases hsuf with h0 | hdot
      · exact Or.inl h0
      · refine Or.inr ?_
        have harith : (c :: '/' :: out).length - dd = (out.length - dd) + 1 + 1 := by
          simp only [List.length_cons]
          omega
        rw [harith, List.drop_succ_cons, List.drop_succ_cons]
        exact hdot

theorem cleanInv_dotdot (out : List Char) (dd : Nat) (h : CleanInv out dd) :
    CleanInv ('.' :: '.' :: (if out.length ≠ 0 then '/' :: out else out))
      ('.' :: '.' :: (if out.length ≠ 0 then '/' :: out else out)).length := by
  obtain ⟨⟨hh, hl, hch⟩, hle, hsuf⟩ := h
  by_cases ho : out.length = 0
  · have hnil : out = [] := List.length_eq_zero.mp ho
    subst hnil
    rw [if_neg (by omega)]
    exact ⟨⟨by simp, by simp, List.chain'_pair.mpr (by simp [notSS])⟩, by simp,
      Or.inr (by simp)⟩
  · rw [if_pos ho]
    have hone : out ≠ [] := by
      intro e
      subst e
      simp at ho
    refine ⟨⟨by simp, ?_, ?_⟩, le_refl _, Or.inr (by simp)⟩
    · rw [show '.' :: '.' :: '/' :: out = ['.', '.', '/'] ++ out from rfl,
        List.getLast?_append_of_ne_nil _ hone]
      exact hl
    · rw [List.chain'_cons]
      refine ⟨by simp [notSS], ?_⟩
      rw [List.chain'_cons]
      refine ⟨by simp [notSS], ?_⟩
      rw [List.chain'_cons']
      refine ⟨fun y hy hss => ?_, hch⟩
      cases out with
      | nil => simp at hy
      | cons d t =>
        obtain rfl : d = y := by simpa using hy
        exact hh (by simpa using hss.2)

theorem cleanLoop_cleanOut : ∀ n : Nat, ∀ inp : List Char, inp.length ≤ n →
    ∀ (out : List Char) (dd : Nat) (inSeg : Bool), CleanInv out dd →
    CleanOut (cleanLoop false inp out dd inSeg) := by
  intro n
  induction n with
  | zero =>
    intro inp hlen out dd inSeg hinv
    have hnil : inp = [] := List.length_eq_zero.mp (Nat.le_zero.mp hlen)
    subst hnil
    exact hinv.1
  | succ n ih =>
    intro inp hlen out dd inSeg hinv
    cases inp with
    | nil => exact hinv.1
    | cons c rest =>
      have hlen2 : rest.length ≤ n := by
        simp only [List.length_cons] at hlen
        omega
      cases inSeg with
      | true =>
        by_cases hc : c = '/'
        · subst hc
          rw [cleanLoop_true_slash]
          exact ih rest hlen2 out dd false hinv
        · have heq : cleanLoop false (c :: rest) out dd true =
              cleanLoop false rest (c :: out) dd true := by
            simp [cleanLoop, hc]
          rw [heq]
          exact ih rest hlen2 _ dd true (cleanInv_cons c out dd hinv hc)
      | false =>
        by_cases hc : c = '/'
        · subst hc
          have heq : cleanLoop false ('/' :: rest) out dd false =
              cleanLoop false rest out dd false := by
            rw [cleanLoop.eq_def]
            simp
          rw [heq]
          exact ih rest hlen2 out dd false hinv
        · by_cases h2 : c = '.' ∧ (rest = [] ∨ rest.head? = some '/')
          · have heq : cleanLoop false (c :: rest) out dd false =
                cleanLoop false rest out dd false := by
              rw [cleanLoop.eq_def]
              simp only []
              rw [if_neg hc, if_pos h2]
            rw [heq]
            exact ih rest hlen2 out dd false hinv
          · by_cases h3 : c = '.' ∧ rest.head? = some '.' ∧
                (rest.tail = [] ∨ rest.tail.head? = some '/')
            · cases rest with
              | nil => exact absurd h3.2.1 (by simp)
              | cons c2 rest2 =>
                have hlen3 : rest2.length ≤ n := by
                  simp only [List.length_cons] at hlen
                  omega
                by_cases hlt : dd < out.length
                · have heq : cleanLoop false (c :: c2 :: rest2) out dd false =
                      cleanLoop false rest2 (popSeg dd out) dd false := by
                    rw [cleanLoop.eq_def]
                    simp only []
                    rw [if_neg hc, if_neg h2, if_pos h3]
                    try simp only []
                    rw [if_pos hlt]
                  rw [heq]
                  exact ih rest2 hlen3 _ dd false (cleanInv_pop out dd hinv hlt)
                · have heq : cleanLoop false (c :: c2 :: rest2) out dd false =
                      cleanLoop false rest2
                        ('.' :: '.' :: (if out.length ≠ 0 then '/' :: out else out))
                        ('.' :: '.' :: (if out.length ≠ 0 then '/' :: out else out)).length
                        false := by
                    rw [cleanLoop.eq_def]
                    simp only []
                    rw [if_neg hc, if_neg h2, if_pos h3]
                    try simp only []
                    rw [if_neg hlt]
                    simp
                  rw [heq]
                  exact ih rest2 hlen3 _ _ false (cleanInv_dotdot out dd hinv)
            · have heq : cleanLoop false (c :: rest) out dd false =
                  cleanLoop false rest (c :: (if out.length ≠ 0 then '/' :: out else out))
                    dd true := by
                rw [cleanLoop.eq_def]
                simp only []
                rw [if_neg hc, if_neg h2, if_neg h3]
                by_cases ho : out.length = 0 <;> simp [ho]
              rw [heq]
              exact ih rest hlen2 _ dd true (cleanInv_push c out dd hinv hc)

theorem pathClean_cleanOut (q : List Char) (hq : q.head? ≠ some '/') :
    CleanOut (pathClean q) := by
  by_cases hnil : q = []
  · subst hnil
    have heq : pathClean [] = ['.'] := rfl
    rw [heq]
    exact ⟨by simp, by simp, List.chain'_singleton '.'⟩
  · rw [pathClean_nonrooted q hnil hq]
    have hout := cleanLoop_cleanOut q.length q (le_refl _) [] 0 false
      ⟨⟨by simp, by simp, List.chain'_nil⟩, by simp, Or.inl rfl⟩
    split
    · exact ⟨by simp, by simp, List.chain'_singleton '.'⟩
    · obtain ⟨hh, hl, hch⟩ := hout
      refine ⟨?_, ?_, ?_⟩
      · rw [List.head?_reverse]
        exact hl
      · rw [getLast?_reverse_eq]
        exact hh
      · rw [List.chain'_reverse]
        exact List.Chain'.imp (fun a b hab hss => hab ⟨hss.2, hss.1⟩) hch

theorem chain'_no_doubleslash (j : List Char) (hch : List.Chain' notSS j) :
    ¬(['/', '/'] <:+: j) := by
  intro hinf
  have h2 := List.Chain'.infix hch hinf
  rw [List.chain'_pair] at h2
  exact h2 ⟨rfl, rfl⟩

/-- Claim C8: for every Path `p`, `Join(p)` never begins with `'/'`, never
ends with `'/'`, and contains no two adjacent separators `"//"`, regardless
of separators anywhere inside the bucket or the key. -/
theorem join_no_stray_separator (p : S3Path) :
    (p.join).head? ≠ some '/' ∧ (p.join).getLast? ≠ some '/' ∧
      ¬(['/', '/'] <:+: p.join) := by
  unfold S3Path.join pathJoinGo
  split
  · refine ⟨by simp, by simp, ?_⟩
    rintro ⟨s, t, he⟩
    simp at he
  · have hhead : (joinBuf [stringsTrimSlash p.bucket, stringsTrimSlash p.key]).head? ≠
        some '/' := by
      rw [joinBuf_pair]
      by_cases ha : stringsTrimSlash p.bucket = []
      · rw [if_pos ha]
        exact trim_head?_ne p.key
      · rw [if_neg ha, List.head?_append_of_ne_nil _ ha]
        exact trim_head?_ne p.bucket
    have hco := pathClean_cleanOut _ hhead
    exact ⟨hco.1, hco.2.1, chain'_no_doubleslash _ hco.2.2⟩
